import Mathlib

/-!
# plus3dosfs: the read path of the +3DOS filesystem driver

A shallow embedding of `src/plus3dosfs.c`.  The process-wide globals of the
C program (`dm`, `d_bsh`, `d_offset`, `d_manyblocks`, `d_list`) are gathered
in one `Volume` value that every operation receives.

Conventions of the embedding:

* a byte of the image is a `Fin 256`; `dm[k]` for `k` outside the mapping is
  undefined in C and reads as `0` here;
* C strings (`const char *`) are lists of character codes; reading at or past
  the end of the list reads the terminating NUL;
* `uint32_t` and `size_t` results are reduced modulo `2^32` and `2^64` where
  the C code computes in those types; `off_t` addresses are plain naturals;
* shift counts are taken as written; a count at or beyond the width of the
  operand is undefined in C and gives the mathematical shift here, reduced
  to the width of the result;
* plain `char` is signed and the host is little-endian (x86-64 Linux); this
  matters for the `%u` conversion of `dm[where+15]` in `plus3_getxattr` and
  for the `memcpy` into `rv.al` in `d_decode` only;
* `memcpy(buf + t, dm + w, n)` is recorded by the image positions
  `w, w+1, ..., w+n-1` it copies from, the bytes being read off afterwards;
  the running total `transferred` of `plus3_read` is the number of positions
  recorded so far, and the `int` returned is the length of the final list.
-/

set_option maxRecDepth 100000

namespace Plus3dos

/-- One byte of the memory-mapped image. -/
abbrev Byte := Fin 256

/-- The error codes the driver returns (negated `errno` values in C). -/
inductive Errno where
  | ENOENT
  | EIO
  | EISDIR
  | ENOATTR
  | ERANGE
  | ENOSYS
  | EACCES
  deriving DecidableEq, Repr

/-- The result of a driver call: a value, or a negative `errno`. -/
inductive Res (α : Type) where
  | ok : α → Res α
  | err : Errno → Res α
  deriving DecidableEq, Repr

/-- The C struct `plus3_dirent`: one decoded directory record. -/
structure plus3_dirent where
  status : Nat
  name : List Nat
  ext : List Nat
  ro : Bool
  sys : Bool
  ar : Bool
  xnum : Nat
  rcount : Nat
  bcount : Nat
  al : List Nat
  deriving DecidableEq, Repr

/-- The globals of the driver.  `d_ndirent` is the length of `d_list`
(`d_list` is allocated with `d_ndirent` elements and filled completely). -/
structure Volume where
  dm : List Byte
  d_bsh : Nat
  d_offset : Nat
  d_manyblocks : Bool
  d_list : List plus3_dirent

/-- The size `d_sz` of the mapping. -/
def Volume.d_sz (v : Volume) : Nat := v.dm.length

/-- The number `d_ndirent` of directory entries. -/
def Volume.d_ndirent (v : Volume) : Nat := v.d_list.length

/-- The byte `dm[k]` as an unsigned char. -/
def dmAt (dm : List Byte) (k : Nat) : Nat := (dm.getD k 0).val

/-- The macro `read16(p)` applied to `dm + k`. -/
def read16 (dm : List Byte) (k : Nat) : Nat :=
  dmAt dm k ||| (dmAt dm (k + 1) <<< 8)

/-- The macro `read32(p)` applied to `dm + k`. -/
def read32 (dm : List Byte) (k : Nat) : Nat :=
  dmAt dm k ||| (dmAt dm (k + 1) <<< 8) ||| (dmAt dm (k + 2) <<< 16) ||| (dmAt dm (k + 3) <<< 24)

/-- The string literal `"PLUS3DOS\032"` (its first nine characters). -/
def signature : List Nat := [80, 76, 85, 83, 51, 68, 79, 83, 26]

/-- The test `memcmp(dm + w, s, n) == 0`. -/
def memcmp0 (dm : List Byte) (w : Nat) (s : List Nat) (n : Nat) : Bool :=
  (List.range n).all fun k => dmAt dm (w + k) == s.getD k 0

/-- The loop `for(i=0;i<127;i++) ck+=dm[where+i];` on a `uint8_t ck`. -/
def checksum (dm : List Byte) (w : Nat) : Nat :=
  (List.range 127).foldl (fun ck i => (ck + dmAt dm (w + i)) % 256) 0

/-- The address `d_offset+(((off_t)e.al[b])<<(7+d_bsh))` of block `b` of an entry. -/
def blockAddr (v : Volume) (e : plus3_dirent) (b : Nat) : Nat :=
  v.d_offset + (e.al.getD b 0 <<< (7 + v.d_bsh))

/-- The `st_size` that `plus3_getattr` stores for a looked-up entry
(source lines 90 to 101). -/
def getattr_size (v : Volume) (e : plus3_dirent) : Nat :=
  let st_size := 128 * e.rcount + e.bcount
  let w := blockAddr v e 0
  if memcmp0 v.dm w signature 9 then
    let size := read32 v.dm (w + 11)
    let ck := checksum v.dm w
    if ck = dmAt v.dm (w + 127) then (size + 4294967296 - 128) % 4294967296
    else st_size
  else st_size

/-- The block "grovel for the header" of `plus3_read` (source lines 165 to
179, repeated in `plus3_getxattr` and `plus3_listxattr`): the pair
`(header, len)`. -/
def grovel (v : Volume) (e : plus3_dirent) : Bool × Nat :=
  let w := blockAddr v e 0
  let len := 128 * e.rcount + e.bcount
  if memcmp0 v.dm w signature 9 then
    let size := read32 v.dm (w + 11)
    let ck := checksum v.dm w
    if ck = dmAt v.dm (w + 127) then (true, size) else (false, len)
  else (false, len)

/-- The image positions `w, ..., w+n-1` that `memcpy(_, dm + w, n)` copies. -/
def srcRange (w n : Nat) : List Nat := (List.range n).map fun k => w + k

/-- The source position and the `uint32_t len` of the copy that the loop of
`plus3_read` performs for block `b` (source lines 203 to 217). -/
def blockCopy (v : Volume) (e : plus3_dirent) (header : Bool)
    (offset size blocknum endblocknum b : Nat) : Nat × Nat :=
  let w := blockAddr v e b
  if b = blocknum then
    (w + (if header && b == 0 then 128 else 0),
      ((((blocknum + 1) <<< (7 + v.d_bsh)) % 4294967296 + 4294967296
        - offset % 4294967296) % 4294967296))
  else if b = endblocknum then
    (w, ((offset + size) % 18446744073709551616 + 4294967296
        - (endblocknum <<< (7 + v.d_bsh)) % 4294967296) % 4294967296)
  else
    (w, (1 <<< (7 + v.d_bsh)) % 4294967296)

/-- The loop `for(uint32_t b=blocknum;b<=endblocknum;b++)` of `plus3_read`,
with `n` iterations left to run from `b`; `buf` holds the positions copied
so far, so `transferred` is its length. -/
def readLoop (v : Volume) (e : plus3_dirent) (header : Bool)
    (offset size blocknum endblocknum : Nat) : Nat → Nat → List Nat → Res (List Nat)
  | 0, _, buf => Res.ok buf
  | n + 1, b, buf =>
    if b < (if v.d_manyblocks then 16 else 8) then
      let c := blockCopy v e header offset size blocknum endblocknum b
      readLoop v e header offset size blocknum endblocknum n (b + 1) (buf ++ srcRange c.1 c.2)
    else Res.err Errno.EIO

/-- The body of `plus3_read` for the entry `e` of the file handle (source
lines 165 to 223): the image positions of the bytes returned, in order. -/
def readEntry (v : Volume) (e : plus3_dirent) (size offset : Nat) : Res (List Nat) :=
  let w := blockAddr v e 0
  let header := (grovel v e).1
  let len := (grovel v e).2
  if offset > len then Res.ok []
  else
    let size := if (offset + size) % 18446744073709551616 > len then len - offset else size
    let blocknum := (offset >>> (7 + v.d_bsh)) % 4294967296
    let endblocknum := (((offset + size) % 18446744073709551616) >>> (7 + v.d_bsh)) % 4294967296
    if blocknum = 0 ∧ endblocknum = 0 then
      Res.ok (srcRange (w + (if header then 128 else 0)) size)
    else
      readLoop v e header offset size blocknum endblocknum (endblocknum + 1 - blocknum) blocknum []

/-- The image positions that `plus3_read` copies into `buf` for the file
handle `fh`, or the error it returns. -/
def plus3_read_src (v : Volume) (fh size offset : Nat) : Res (List Nat) :=
  match v.d_list.get? fh with
  | none => Res.err Errno.ENOENT
  | some e => readEntry v e size offset

/-- The function `plus3_read`: the bytes left in `buf[0..n)` where `n` is the
returned count, or the error returned. -/
def plus3_read (v : Volume) (fh size offset : Nat) : Res (List Byte) :=
  match plus3_read_src v fh size offset with
  | Res.ok ps => Res.ok (ps.map fun p => v.dm.getD p 0)
  | Res.err c => Res.err c

/-- The loop `while(ne&&(nm[ne-1]==' ')) nm[--ne]=0;` of `plus3_readdir`: the
final value of `ne`, the characters below it being left untouched. -/
def trimLen (nm : List Nat) : Nat → Nat
  | 0 => 0
  | ne + 1 => if nm.getD ne 0 = 32 then trimLen nm ne else ne + 1

/-- The C string that starts at the head of a character buffer. -/
def cstr (buf : List Nat) : List Nat := buf.takeWhile fun c => c ≠ 0

/-- The name that `plus3_readdir` hands to `filler` for one visible entry
(source lines 123 to 133), or `none` when the entry is skipped by `continue`. -/
def direntName (e : plus3_dirent) : Option (List Nat) :=
  let nm := (List.range 8).map fun k => e.name.getD k 0
  let ex := (List.range 3).map fun k => e.ext.getD k 0
  let ne := trimLen nm 8
  let ee := trimLen ex 3
  if ne = 0 ∧ ee = 0 then none
  else if ee ≠ 0 then
    some (cstr (nm.take ne ++ (46 :: cstr (ex.take ee)).take (13 - ne - 1)))
  else some (cstr (nm.take ne))

/-- The test `(d_list[i].status<16)&&!d_list[i].xnum`. -/
def visible (e : plus3_dirent) : Bool := decide (e.status < 16) && decide (e.xnum = 0)

/-- The function `plus3_readdir`: the names passed to `filler`, in order. -/
def plus3_readdir (v : Volume) (path : List Nat) : Res (List (List Nat)) :=
  if cstr path = [47] then
    Res.ok ([[46], [46, 46]] ++
      v.d_list.filterMap fun e => if visible e then direntName e else none)
  else Res.err Errno.ENOENT

/-- The first loop of `lookup` (source lines 582 to 587) with `n` iterations
left: the value of `ne` at which it stops. -/
def scanName (path : List Nat) : Nat → Nat → Nat
  | 0, ne => ne
  | n + 1, ne =>
    if path.getD ne 0 = 46 then ne
    else if path.getD ne 0 = 0 then ne
    else scanName path n (ne + 1)

/-- The extension loop of `lookup` (source lines 595 to 599) with `n`
iterations left: the value of `ee` at which it stops. -/
def scanExt (path : List Nat) (nl : Nat) : Nat → Nat → Nat
  | 0, ee => ee
  | n + 1, ee =>
    if path.getD (nl + ee) 0 = 0 then ee
    else scanExt path nl n (ee + 1)

/-- The test `memcmp(a, b, n) == 0` on two character arrays. -/
def sameChars (a b : List Nat) (n : Nat) : Bool :=
  (List.range n).all fun k => a.getD k 0 == b.getD k 0

/-- The search loop of `lookup` (source lines 605 to 616) over the entries
from slot `i` on. -/
def lookupFrom (nm ex : List Nat) : List plus3_dirent → Nat → Int
  | [], _ => -1
  | e :: es, i =>
    if visible e && sameChars nm e.name 8 && sameChars ex e.ext 3 then (i : Int)
    else lookupFrom nm ex es (i + 1)

/-- The function `lookup`. -/
def lookup (v : Volume) (path : List Nat) : Int :=
  let nl := scanName path 8 0
  let nm := (List.range 8).map fun k => if k < nl then path.getD k 0 else 32
  if path.getD nl 0 ≠ 0 then
    if path.getD nl 0 ≠ 46 then -1
    else
      let ee := scanExt path (nl + 1) 3 0
      let ex := (List.range 3).map fun k => if k < ee then path.getD (nl + 1 + k) 0 else 32
      lookupFrom nm ex v.d_list 0
  else lookupFrom nm [32, 32, 32] v.d_list 0

/-- The fields of `struct stat` that `plus3_getattr` sets. -/
structure Stat where
  st_mode : Nat
  st_nlink : Nat
  st_size : Nat
  deriving DecidableEq, Repr

/-- The function `plus3_getattr` (`S_IFDIR` is `0o40000`, `S_IFREG` is
`0o100000`). -/
def plus3_getattr (v : Volume) (path : List Nat) : Res Stat :=
  if cstr path = [47] then
    Res.ok { st_mode := 0o40000 ||| 0o400, st_nlink := 2, st_size := v.d_sz }
  else if path.getD 0 0 ≠ 47 then Res.err Errno.ENOENT
  else
    let i := lookup v (path.drop 1)
    if i < 0 ∨ i ≥ (v.d_ndirent : Int) then Res.err Errno.ENOENT
    else
      match v.d_list.get? i.toNat with
      | none => Res.err Errno.ENOENT
      | some e =>
        Res.ok { st_mode := 0o100000 ||| (if e.ro then 0o500 else 0o700),
                 st_nlink := 1, st_size := getattr_size v e }


/-! ## Decoding the directory and finding its start (`d_decode`, `dread`, `main`) -/

/-- The function `dread`: the `bytes` bytes that `memcpy(buf, dm+offset, bytes)`
leaves in `buf`. -/
def dread (dm : List Byte) (bytes offset : Nat) : List Byte :=
  (List.range bytes).map fun k => dm.getD (offset + k) 0

/-- The character `buf[k]` of a record as an unsigned value. -/
def bufAt (buf : List Byte) (k : Nat) : Nat := (buf.getD k 0).val

/-- The statement `memcpy(rv.al, buf+0x10, 0x10)` of `d_decode` on a
little-endian host: the 16 bytes fill the elements 0 to 7 of the
`uint16_t al[16]` array, low byte first; the elements 8 to 15 keep the
indeterminate contents `junk` of the uninitialised local `rv`. -/
def memcpy_al (junk : List Nat) (buf : List Byte) : List Nat :=
  (List.range 16).map fun k =>
    if k < 8 then bufAt buf (16 + 2 * k) + 256 * bufAt buf (16 + 2 * k + 1)
    else junk.getD k 0

/-- The loop `for(i=0;i<8;i++) rv.al[i]=read16(buf+0x10+(i<<1));` of
`d_decode`; the elements 8 to 15 keep the indeterminate contents `junk`. -/
def read16_al (junk : List Nat) (buf : List Byte) : List Nat :=
  (List.range 16).map fun k =>
    if k < 8 then read16 buf (16 + (k <<< 1)) else junk.getD k 0

/-- The function `d_decode` for a given value of the global `d_manyblocks`;
`junk` is the indeterminate initial content of `rv.al`.  A `char` operand
of `&` with a mask below 256 contributes its low eight bits whatever the
signedness of `char`, so the record bytes are taken unsigned. -/
def d_decode (manyblocks : Bool) (junk : List Nat) (buf : List Byte) : plus3_dirent :=
  { status := bufAt buf 0,
    name := (List.range 8).map fun i => bufAt buf (i + 1) &&& 0x7f,
    ext := (List.range 3).map fun i => bufAt buf (i + 9) &&& 0x7f,
    ro := decide (bufAt buf 9 &&& 0x80 ≠ 0),
    sys := decide (bufAt buf 10 &&& 0x80 ≠ 0),
    ar := decide (bufAt buf 11 &&& 0x80 ≠ 0),
    xnum := (bufAt buf 12 &&& 0x1f) ||| ((bufAt buf 14 &&& 0x3f) <<< 5),
    bcount := bufAt buf 13,
    rcount := bufAt buf 15,
    al := if manyblocks then read16_al junk buf else memcpy_al junk buf }

/-- The outcome of the `d_offset` autodetection of `main`. -/
inductive Scan where
  | found : Nat → Scan
  | failed : Scan
  deriving DecidableEq, Repr

/-- The loop `while(!dm[d_offset+1])` of `main` (source lines 499 to 507),
with `n` evaluations of the loop condition left and `seen` the indices of
`dm` examined so far; `none` when `n` evaluations do not finish the loop. -/
def scanLoop (dm : List Byte) : Nat → Nat → List Nat → Option (Scan × List Nat)
  | 0, _, _ => none
  | n + 1, d_offset, seen =>
    if dmAt dm (d_offset + 1) ≠ 0 then some (Scan.found d_offset, seen ++ [d_offset + 1])
    else if d_offset + 0x20 + 1 > dm.length then some (Scan.failed, seen ++ [d_offset + 1])
    else scanLoop dm n (d_offset + 0x20) (seen ++ [d_offset + 1])

/-- The `d_offset` autodetection of `main` on an image. -/
def scanStart (dm : List Byte) : Option (Scan × List Nat) :=
  scanLoop dm (dm.length / 32 + 2) 0 []

/-- The catalog loop of `main` (source lines 509 to 516). -/
def buildCatalog (dm : List Byte) (manyblocks : Bool) (junk : List Nat)
    (d_offset d_ndirent : Nat) : List plus3_dirent :=
  (List.range d_ndirent).map fun i =>
    d_decode manyblocks junk (dread dm 0x20 (d_offset + i * 0x20))

/-- The globals as `main` leaves them for an image and the geometry
attributes `ndirent`, `nblocks`, `bsh`; `none` when the autodetection of
`d_offset` fails. -/
def mountVolume (dm : List Byte) (ndirent nblocks bsh : Nat) (junk : List Nat) :
    Option Volume :=
  match scanStart dm with
  | some (Scan.found d_offset, _) =>
    some { dm := dm, d_bsh := bsh, d_offset := d_offset,
           d_manyblocks := decide (nblocks > 255),
           d_list := buildCatalog dm (decide (nblocks > 255)) junk d_offset ndirent }
  | _ => none

/-! ## Extended attributes (`plus3_getxattr`, `plus3_listxattr`) -/

/-- The value of the plain `char` `dm[k]` after integer promotion, plain
`char` being signed (as on x86 and x86-64 Linux). -/
def charAt (dm : List Byte) (k : Nat) : Int :=
  if dmAt dm k < 128 then (dmAt dm k : Int) else (dmAt dm k : Int) - 256

/-- The characters that the conversion `%u` prints for a natural number. -/
def decimal (n : Nat) : List Nat := (Nat.toDigits 10 n).map Char.toNat

/-- The characters that `snprintf(result, 256, "%u%n", x, &rlen)` writes for
an `int` argument `x`, read as `unsigned int`. -/
def fmt_u (x : Int) : List Nat := decimal (x % 4294967296).toNat

/-- The attribute name `"user.plus3dos.plus3basic."` followed by `suffix`. -/
def xattrKey (suffix : String) : List Nat :=
  ("user.plus3dos.plus3basic." ++ suffix).toList.map Char.toNat

/-- The content of `result[0..rlen)` after the chain of tests of
`plus3_getxattr` (source lines 250 to 264); empty when `rlen` stays 0. -/
def xattrValue (v : Volume) (e : plus3_dirent) (name : List Nat) : List Nat :=
  let w := blockAddr v e 0
  let header := (grovel v e).1
  if header && decide (cstr name = xattrKey "filetype") then
    fmt_u (charAt v.dm (w + 15))
  else if header && decide (dmAt v.dm (w + 15) = 0) && decide (cstr name = xattrKey "line") then
    fmt_u (read16 v.dm (w + 18))
  else if header && decide (dmAt v.dm (w + 15) = 0) && decide (cstr name = xattrKey "prog") then
    fmt_u (read16 v.dm (w + 20))
  else if header && (decide (dmAt v.dm (w + 15) = 1) || decide (dmAt v.dm (w + 15) = 2))
      && decide (cstr name = xattrKey "name") then
    [dmAt v.dm (w + 19)]
  else if header && decide (dmAt v.dm (w + 15) = 3) && decide (cstr name = xattrKey "addr") then
    fmt_u (read16 v.dm (w + 18))
  else []

/-- The conversion `(int)vlen` of a `size_t`. -/
def toInt32 (n : Nat) : Int :=
  if n % 4294967296 < 2147483648 then (n % 4294967296 : Nat)
  else ((n % 4294967296 : Nat) : Int) - 4294967296

/-- The body of `plus3_getxattr` for a looked-up entry (source lines 233 to
273): the value returned and the bytes copied to `value`. -/
def getxattrEntry (v : Volume) (e : plus3_dirent) (name : List Nat) (vlen : Nat) :
    Res (Nat × List Nat) :=
  let result := xattrValue v e name
  let rlen := result.length
  if rlen = 0 then Res.err Errno.ENOATTR
  else if vlen ≠ 0 then
    if toInt32 vlen < (rlen : Int) then Res.err Errno.ERANGE
    else Res.ok (rlen, result)
  else Res.ok (rlen, [])

/-- The function `plus3_getxattr`. -/
def plus3_getxattr (v : Volume) (path name : List Nat) (vlen : Nat) : Res (Nat × List Nat) :=
  if path.getD 0 0 ≠ 47 then Res.err Errno.ENOENT
  else if path.getD 1 0 = 0 then Res.err Errno.ENOATTR
  else
    let i := lookup v (path.drop 1)
    if i < 0 ∨ i ≥ (v.d_ndirent : Int) then Res.err Errno.ENOENT
    else
      match v.d_list.get? i.toNat with
      | none => Res.err Errno.ENOENT
      | some e => getxattrEntry v e name vlen

/-- The decoded form of a directory record filled with `0xE5` (an unused slot). -/
def unusedEntry : plus3_dirent :=
  { status := 229, name := List.replicate 8 101, ext := List.replicate 3 101,
    ro := true, sys := true, ar := true, xnum := 1189, rcount := 229, bcount := 229,
    al := List.replicate 8 58853 ++ List.replicate 8 0 }

/-- The 32 bytes of a directory record of user 0 with extent number 0. -/
def recordBytes (name ext : List Byte) (bc rc : Byte) (al : List Byte) : List Byte :=
  [0] ++ name ++ ext ++ [0, bc, 0, rc] ++ al

/-- File `A`: no header, `rcount = 1`, `bcount = 1` (129 bytes), blocks 1 and 2. -/
def entryA : plus3_dirent :=
  { status := 0, name := [65, 32, 32, 32, 32, 32, 32, 32], ext := [32, 32, 32],
    ro := false, sys := false, ar := false, xnum := 0, rcount := 1, bcount := 1,
    al := [1, 2, 0, 0, 0, 0, 0, 0, 0, 0, 0, 0, 0, 0, 0, 0] }

/-- File `B`: no header, `rcount = 9`, `bcount = 0` (1152 bytes), blocks 3 to 10. -/
def entryB : plus3_dirent :=
  { status := 0, name := [66, 32, 32, 32, 32, 32, 32, 32], ext := [32, 32, 32],
    ro := false, sys := false, ar := false, xnum := 0, rcount := 9, bcount := 0,
    al := [3, 4, 5, 6, 7, 8, 9, 10, 0, 0, 0, 0, 0, 0, 0, 0] }

/-- An image with 128-byte blocks (`d_bsh = 0`) on a volume of at most 255
blocks: the directory in block 0, then eleven data blocks whose byte at
position `p` is `p % 251`. -/
def plainImage : List Byte :=
  recordBytes [65, 32, 32, 32, 32, 32, 32, 32] [32, 32, 32] 1 1
      [1, 0, 2, 0, 0, 0, 0, 0, 0, 0, 0, 0, 0, 0, 0, 0]
    ++ recordBytes [66, 32, 32, 32, 32, 32, 32, 32] [32, 32, 32] 0 9
      [3, 0, 4, 0, 5, 0, 6, 0, 7, 0, 8, 0, 9, 0, 10, 0]
    ++ List.replicate 64 229
    ++ (List.range 1408).map fun k => Fin.ofNat ((128 + k) % 251)

/-- The volume of `plainImage`. -/
def plainVolume : Volume :=
  { dm := plainImage, d_bsh := 0, d_offset := 0, d_manyblocks := false,
    d_list := [entryA, entryB, unusedEntry, unusedEntry] }

/-- A valid 128-byte +3DOS header: signature, issue 1, version 0, length
field 600, file type 3 with length 472 and load address 32768, checksum 46. -/
def headerBlock : List Byte :=
  [80, 76, 85, 83, 51, 68, 79, 83, 26, 1, 0, 88, 2, 0, 0, 3, 216, 1, 0, 128]
    ++ List.replicate 107 0 ++ [46]

/-- File `H`: a header with length field 600 in front of 472 bytes of data,
in blocks 1, 2 and 3 of a volume with 256-byte blocks. -/
def entryH : plus3_dirent :=
  { status := 0, name := [72, 32, 32, 32, 32, 32, 32, 32], ext := [66, 73, 78],
    ro := false, sys := false, ar := false, xnum := 0, rcount := 5, bcount := 0,
    al := [1, 2, 3, 0, 0, 0, 0, 0, 0, 0, 0, 0, 0, 0, 0, 0] }

/-- An image with 256-byte blocks (`d_bsh = 1`): the directory in block 0,
the header of `H` at the start of block 1, data up to the end of block 3. -/
def headerImage : List Byte :=
  recordBytes [72, 32, 32, 32, 32, 32, 32, 32] [66, 73, 78] 0 5
      [1, 0, 2, 0, 3, 0, 0, 0, 0, 0, 0, 0, 0, 0, 0, 0]
    ++ List.replicate 96 229 ++ List.replicate 128 0
    ++ headerBlock
    ++ (List.range 640).map fun k => Fin.ofNat (k + 1)

/-- The volume of `headerImage`. -/
def headerVolume : Volume :=
  { dm := headerImage, d_bsh := 1, d_offset := 0, d_manyblocks := false,
    d_list := [entryH, unusedEntry, unusedEntry, unusedEntry] }

/-! ## Header validity as the specification words it -/

/-- The sum of the first 127 bytes at `w`, as a natural number. -/
def headerSum (dm : List Byte) (w : Nat) : Nat :=
  ((List.range 127).map fun k => dmAt dm (w + k)).sum

/-- Validity of a header in the words of the specification: the nine bytes
at `w` are the signature and the sum of bytes 0 to 126 modulo 256 is byte 127. -/
def specValidHeader (dm : List Byte) (w : Nat) : Prop :=
  (∀ k, k < 9 → dmAt dm (w + k) = signature.getD k 0) ∧
    headerSum dm w % 256 = dmAt dm (w + 127)

instance (dm : List Byte) (w : Nat) : Decidable (specValidHeader dm w) := by
  unfold specValidHeader
  infer_instance

/-- The 32-bit little-endian length field at byte 11 of the block at `w`. -/
def specLengthField (dm : List Byte) (w : Nat) : Nat :=
  dmAt dm (w + 11) + 256 * dmAt dm (w + 12) + 65536 * dmAt dm (w + 13)
    + 16777216 * dmAt dm (w + 14)

/-! ## The request of `lookup` as the specification words it -/

/-- The left segment of a request: its characters before the first `'.'`. -/
def reqLeft (path : List Nat) : List Nat := (cstr path).takeWhile fun c => c ≠ 46

/-- The right segment of a request: its characters after the first `'.'`
(empty when the request has no `'.'`). -/
def reqRight (path : List Nat) : List Nat := ((cstr path).dropWhile fun c => c ≠ 46).drop 1

/-- A segment truncated or right-padded with spaces to `n` characters. -/
def padTo (n : Nat) (seg : List Nat) : List Nat := (seg ++ List.replicate n 32).take n

/-- An entry matches a request: it is visible and its 8 name bytes and 3 ext
bytes equal the padded segments byte for byte. -/
def specMatches (path : List Nat) (e : plus3_dirent) : Prop :=
  e.status < 16 ∧ e.xnum = 0 ∧
    (∀ k, k < 8 → e.name.getD k 0 = (padTo 8 (reqLeft path)).getD k 0) ∧
    (∀ k, k < 3 → e.ext.getD k 0 = (padTo 3 (reqRight path)).getD k 0)

instance (path : List Nat) (e : plus3_dirent) : Decidable (specMatches path e) := by
  unfold specMatches
  infer_instance

/-- A visible directory entry of user 0 with the given name and extension,
one record long, stored in block 1. -/
def namedEntry (name ext : List Nat) : plus3_dirent :=
  { status := 0, name := name, ext := ext, ro := false, sys := false, ar := false,
    xnum := 0, rcount := 1, bcount := 0,
    al := [1, 0, 0, 0, 0, 0, 0, 0, 0, 0, 0, 0, 0, 0, 0, 0] }

/-- The 32 directory bytes of `namedEntry`. -/
def namedRecord (name ext : List Byte) : List Byte :=
  recordBytes name ext 0 1 [1, 0, 0, 0, 0, 0, 0, 0, 0, 0, 0, 0, 0, 0, 0, 0]

/-- A volume with 256-byte blocks whose directory holds, in slot order, the
names `A`, `A` again, `C.D` (a dot inside the name field), `E\0F` (a NUL
inside the name field), `ABCDEFGH`, and three unused slots. -/
def namesVolume : Volume :=
  { dm := namedRecord [65, 32, 32, 32, 32, 32, 32, 32] [32, 32, 32]
      ++ namedRecord [65, 32, 32, 32, 32, 32, 32, 32] [32, 32, 32]
      ++ namedRecord [67, 46, 68, 32, 32, 32, 32, 32] [32, 32, 32]
      ++ namedRecord [69, 0, 70, 32, 32, 32, 32, 32] [32, 32, 32]
      ++ namedRecord [65, 66, 67, 68, 69, 70, 71, 72] [32, 32, 32]
      ++ List.replicate 96 229 ++ List.replicate 256 7,
    d_bsh := 1, d_offset := 0, d_manyblocks := false,
    d_list := [namedEntry [65, 32, 32, 32, 32, 32, 32, 32] [32, 32, 32],
      namedEntry [65, 32, 32, 32, 32, 32, 32, 32] [32, 32, 32],
      namedEntry [67, 46, 68, 32, 32, 32, 32, 32] [32, 32, 32],
      namedEntry [69, 0, 70, 32, 32, 32, 32, 32] [32, 32, 32],
      namedEntry [65, 66, 67, 68, 69, 70, 71, 72] [32, 32, 32],
      unusedEntry, unusedEntry, unusedEntry] }

/-! ## Further concrete volumes -/

/-- A 128-byte +3DOS header with length field 130, file type `ft`, the two
16-bit parameters `p1` and `p2` (low byte first) and checksum byte `ck`. -/
def headerWith (ft p1lo p1hi p2lo p2hi ck : Byte) : List Byte :=
  [80, 76, 85, 83, 51, 68, 79, 83, 26, 1, 0, 130, 0, 0, 0, ft, 2, 0, p1lo, p1hi, p2lo, p2hi]
    ++ List.replicate 105 0 ++ [ck]

/-- The entry of a file `H.BIN` of two records stored in block 1. -/
def entryW : plus3_dirent :=
  { entryH with rcount := 2, al := [1, 0, 0, 0, 0, 0, 0, 0, 0, 0, 0, 0, 0, 0, 0, 0] }

/-- The volume with 256-byte blocks whose only file `H.BIN` (slot 0, block 1)
starts with the header `hdr`, followed by data bytes. -/
def volumeWith (hdr : List Byte) : Volume :=
  { dm := recordBytes [72, 32, 32, 32, 32, 32, 32, 32] [66, 73, 78] 0 2
        [1, 0, 0, 0, 0, 0, 0, 0, 0, 0, 0, 0, 0, 0, 0, 0]
      ++ List.replicate 96 229 ++ List.replicate 128 0 ++ hdr ++ List.replicate 128 9,
    d_bsh := 1, d_offset := 0, d_manyblocks := false,
    d_list := [entryW, unusedEntry, unusedEntry, unusedEntry] }

/-- A BASIC program file: file type 0, autorun line 10, variables at 20. -/
def basicVolume : Volume := volumeWith (headerWith 0 10 0 20 0 26)

/-- A file whose valid header carries the file-type byte 200. -/
def oddVolume : Volume := volumeWith (headerWith 200 0 0 0 0 196)

/-- A directory record of user 0 whose sixteen block-pointer bytes are
1, 2, ..., 16. -/
def pointerRecord : List Byte :=
  recordBytes [80, 32, 32, 32, 32, 32, 32, 32] [32, 32, 32] 0 1
    [1, 2, 3, 4, 5, 6, 7, 8, 9, 10, 11, 12, 13, 14, 15, 16]

/-- An image cut off after its directory block: file `A` (slot 0, nominal
size 129) has block pointer 1, which addresses position 128, the end of the
128-byte image. -/
def shortVolume : Volume :=
  { dm := recordBytes [65, 32, 32, 32, 32, 32, 32, 32] [32, 32, 32] 1 1
        [1, 0, 0, 0, 0, 0, 0, 0, 0, 0, 0, 0, 0, 0, 0, 0]
      ++ List.replicate 96 229,
    d_bsh := 0, d_offset := 0, d_manyblocks := false,
    d_list := [{ entryA with al := [1, 0, 0, 0, 0, 0, 0, 0, 0, 0, 0, 0, 0, 0, 0, 0] },
      unusedEntry, unusedEntry, unusedEntry] }

/-- File `S`: no header, `rcount = 2`, `bcount = 50` (306 bytes), block 1. -/
def entryS : plus3_dirent :=
  { status := 0, name := [83, 32, 32, 32, 32, 32, 32, 32], ext := [32, 32, 32],
    ro := false, sys := false, ar := false, xnum := 0, rcount := 2, bcount := 50,
    al := [1, 0, 0, 0, 0, 0, 0, 0, 0, 0, 0, 0, 0, 0, 0, 0] }

/-- A volume of at most 255 blocks with 1024-byte blocks (`d_bsh = 3`): the
directory at the start of block 0, file `S` in block 1. -/
def kiloVolume : Volume :=
  { dm := recordBytes [83, 32, 32, 32, 32, 32, 32, 32] [32, 32, 32] 50 2
        [1, 0, 0, 0, 0, 0, 0, 0, 0, 0, 0, 0, 0, 0, 0, 0]
      ++ List.replicate 992 229 ++ (List.range 1024).map fun k => Fin.ofNat (k % 251),
    d_bsh := 3, d_offset := 0, d_manyblocks := false,
    d_list := [entryS, unusedEntry, unusedEntry, unusedEntry] }


/-- The value of an extended attribute in the words of the specification:
absent without a valid header; otherwise `filetype` is the decimal string
of header byte 15, `line` and `prog` (file type 0) and `addr` (file type 3)
are the decimal strings of the unsigned 16-bit little-endian fields at
bytes 18 and 20, and `name` (file types 1 and 2) is the raw byte 19. -/
def specXattr (v : Volume) (e : plus3_dirent) (key : List Nat) : Option (List Nat) :=
  let w := blockAddr v e 0
  if specValidHeader v.dm w then
    if key = xattrKey "filetype" then some (decimal (dmAt v.dm (w + 15)))
    else if dmAt v.dm (w + 15) = 0 ∧ key = xattrKey "line" then
      some (decimal (dmAt v.dm (w + 18) + 256 * dmAt v.dm (w + 19)))
    else if dmAt v.dm (w + 15) = 0 ∧ key = xattrKey "prog" then
      some (decimal (dmAt v.dm (w + 20) + 256 * dmAt v.dm (w + 21)))
    else if (dmAt v.dm (w + 15) = 1 ∨ dmAt v.dm (w + 15) = 2) ∧ key = xattrKey "name" then
      some [dmAt v.dm (w + 19)]
    else if dmAt v.dm (w + 15) = 3 ∧ key = xattrKey "addr" then
      some (decimal (dmAt v.dm (w + 18) + 256 * dmAt v.dm (w + 19)))
    else none
  else none

/-! ## The display name as the specification words it -/

/-- A name or ext field with its trailing spaces removed. -/
def specTrim (l : List Nat) : List Nat := l.rdropWhile fun c => c == 32

/-- The display name in the words of the specification: the trimmed name,
followed by `'.'` and the trimmed ext when that is not empty. -/
def specDisplayName (e : plus3_dirent) : List Nat :=
  specTrim e.name ++ (if specTrim e.ext ≠ [] then 46 :: specTrim e.ext else [])

/-- The display name as the C string that reaches `filler`: the trimmed ext
and the whole name are cut at their first NUL character. -/
def specDisplayNameC (e : plus3_dirent) : List Nat :=
  cstr (specTrim e.name ++ (if specTrim e.ext ≠ [] then 46 :: cstr (specTrim e.ext) else []))

/-- An entry is listed: `status < 16`, extent number 0, and a name or ext
that is not all spaces. -/
def specListed (e : plus3_dirent) : Bool :=
  decide (e.status < 16) && decide (e.xnum = 0)
    && !(decide (specTrim e.name = []) && decide (specTrim e.ext = []))

/-- The volume whose image has byte `p` replaced by `b`. -/
def pokeByte (v : Volume) (p : Nat) (b : Byte) : Volume :=
  { v with dm := v.dm.set p b }

/-! ## Lemmas on the header test -/

theorem dmAt_lt (dm : List Byte) (k : Nat) : dmAt dm k < 256 := (dm.getD k 0).isLt

theorem memcmp0_iff (dm : List Byte) (w : Nat) (s : List Nat) (n : Nat) :
    memcmp0 dm w s n = true ↔ ∀ k, k < n → dmAt dm (w + k) = s.getD k 0 := by
  simp [memcmp0, List.all_eq_true, List.mem_range]

theorem foldl_mod_eq_sum (f : Nat → Nat) (n : Nat) :
    (List.range n).foldl (fun ck i => (ck + f i) % 256) 0
      = ((List.range n).map f).sum % 256 := by
  induction n with
  | zero => simp
  | succ n ih =>
    rw [List.range_succ, List.foldl_append, ih]
    simp [List.sum_append, Nat.add_mod]

theorem checksum_eq (dm : List Byte) (w : Nat) : checksum dm w = headerSum dm w % 256 := by
  unfold checksum headerSum
  exact foldl_mod_eq_sum (fun i => dmAt dm (w + i)) 127

theorem lor_shift_eq_add (a b i : Nat) (h : a < 2 ^ i) : a ||| (b <<< i) = a + 2 ^ i * b := by
  rw [Nat.shiftLeft_eq, Nat.lor_comm, Nat.mul_comm b, ← Nat.mul_add_lt_is_or h b, Nat.add_comm]

theorem read32_eq (dm : List Byte) (w : Nat) :
    read32 dm (w + 11) = specLengthField dm w := by
  have h0 := dmAt_lt dm (w + 11)
  have h1 := dmAt_lt dm (w + 12)
  have h2 := dmAt_lt dm (w + 13)
  unfold read32 specLengthField
  rw [show w + 11 + 1 = w + 12 from rfl, show w + 11 + 2 = w + 13 from rfl,
    show w + 11 + 3 = w + 14 from rfl]
  rw [lor_shift_eq_add _ _ 8 (by omega), lor_shift_eq_add _ _ 16 (by omega),
    lor_shift_eq_add _ _ 24 (by omega)]
  omega

theorem read32_lt (dm : List Byte) (k : Nat) : read32 dm k < 4294967296 := by
  have h0 := dmAt_lt dm k
  have h1 := dmAt_lt dm (k + 1)
  have h2 := dmAt_lt dm (k + 2)
  have h3 := dmAt_lt dm (k + 3)
  unfold read32
  rw [lor_shift_eq_add _ _ 8 (by omega), lor_shift_eq_add _ _ 16 (by omega),
    lor_shift_eq_add _ _ 24 (by omega)]
  omega

/-- The `header` flag of `plus3_read` is set exactly for a header that is
valid in the words of the specification. -/
theorem grovel_fst_iff (v : Volume) (e : plus3_dirent) :
    (grovel v e).1 = true ↔ specValidHeader v.dm (blockAddr v e 0) := by
  unfold grovel specValidHeader
  simp only [← memcmp0_iff, ← checksum_eq]
  by_cases h1 : memcmp0 v.dm (blockAddr v e 0) signature 9 = true
  · by_cases h2 : checksum v.dm (blockAddr v e 0) = dmAt v.dm (blockAddr v e 0 + 127)
    · simp [h1, h2]
    · simp [h1, h2]
  · simp [h1]

/-! ## Claims C1 to C4 and C7: the read path at concrete inputs -/


/-- C1 (the code departs from the claim).  On `plainVolume` file `A` (slot 0)
has no valid header and nominal size 129.  Reading one byte at offset 1
succeeds and returns the byte at image position 128, the byte of file
position 0, although the byte of file position 1 lies at image position
`blockAddr + 1 = 129` and has a different value. -/
theorem read_ignores_offset_in_block :
    grovel plainVolume entryA = (false, 129) ∧
    plus3_read_src plainVolume 0 1 1 = Res.ok [128] ∧
    plus3_read plainVolume 0 1 1 = Res.ok [plainVolume.dm.getD 128 0] ∧
    blockAddr plainVolume entryA (1 / 128) + 1 % 128 = 129 ∧
    plainVolume.dm.getD 128 0 ≠ plainVolume.dm.getD 129 0 := by
  decide

/-- C2 (the code departs from the claim).  On `plainVolume` file `A` has no
valid header and nominal size 129.  Reading one byte at offset 128 succeeds
and returns the 128 bytes at image positions 256 to 383, so that
`offset + n = 256` exceeds the nominal size 129. -/
theorem read_returns_past_nominal_size :
    grovel plainVolume entryA = (false, 129) ∧
    plus3_read_src plainVolume 0 1 128 = Res.ok (srcRange 256 128) ∧
    (∃ bytes, plus3_read plainVolume 0 1 128 = Res.ok bytes ∧ bytes.length = 128 ∧
      ¬ (128 + bytes.length ≤ 128 * entryA.rcount + entryA.bcount)) := by
  refine ⟨by decide, by decide, (srcRange 256 128).map fun p => plainVolume.dm.getD p 0,
    by decide, by decide, by decide⟩

/-- C3 (the code departs from the claim).  On `plainVolume` file `A` has
effective size 129.  Reading one byte at offset 129, which equals the
effective size and falls in block 1, does not return an empty result: it
returns the 127 bytes at image positions 256 to 382. -/
theorem read_at_end_of_file_not_empty :
    grovel plainVolume entryA = (false, 129) ∧
    getattr_size plainVolume entryA = 129 ∧
    plus3_read_src plainVolume 0 1 129 = Res.ok (srcRange 256 127) ∧
    plus3_read plainVolume 0 1 129 ≠ Res.ok [] := by
  decide

/-- C4 (the code departs from the claim).  `plainVolume` is not a
many-blocks volume, so the claimed capacity is 16.  File `B` (slot 1) has
size 1152; reading one byte at offset 1024 needs block index 8 only, which
is below 16, and yet the read fails with `EIO`. -/
theorem read_fails_below_capacity_sixteen :
    plainVolume.d_manyblocks = false ∧
    grovel plainVolume entryB = (false, 1152) ∧
    1024 / 128 = 8 ∧ (1024 + 1) / 128 = 8 ∧
    plus3_read plainVolume 1 1 1024 = Res.err Errno.EIO := by
  decide

/-- C7 (the code departs from the claim).  On `headerVolume` file `H`
(slot 0) has a valid header with length field 600.  `plus3_getattr` reports
the size 472, while `plus3_read` clips against 600: reading 1000 bytes at
offset 0 copies the bytes of 600 image positions, not 472. -/
theorem read_clips_against_length_field :
    grovel headerVolume entryH = (true, 600) ∧
    plus3_getattr headerVolume [47, 72, 46, 66, 73, 78]
      = Res.ok { st_mode := 0o100700, st_nlink := 1, st_size := 472 } ∧
    plus3_read_src headerVolume 0 1000 0
      = Res.ok (srcRange 384 256 ++ srcRange 512 256 ++ srcRange 768 88) ∧
    (srcRange 384 256 ++ srcRange 512 256 ++ srcRange 768 88).length = 600 := by
  decide

/-! ## Claims C5 and C6: header validity and the reported size -/

theorem getattr_size_valid (v : Volume) (e : plus3_dirent)
    (h : specValidHeader v.dm (blockAddr v e 0)) :
    getattr_size v e
      = (specLengthField v.dm (blockAddr v e 0) + 4294967296 - 128) % 4294967296 := by
  have h1 : memcmp0 v.dm (blockAddr v e 0) signature 9 = true := (memcmp0_iff _ _ _ _).2 h.1
  have h2 : checksum v.dm (blockAddr v e 0) = dmAt v.dm (blockAddr v e 0 + 127) := by
    rw [checksum_eq]; exact h.2
  unfold getattr_size
  simp [h1, h2, read32_eq]

theorem getattr_size_invalid (v : Volume) (e : plus3_dirent)
    (h : ¬ specValidHeader v.dm (blockAddr v e 0)) :
    getattr_size v e = 128 * e.rcount + e.bcount := by
  unfold getattr_size
  by_cases h1 : memcmp0 v.dm (blockAddr v e 0) signature 9 = true
  · by_cases h2 : checksum v.dm (blockAddr v e 0) = dmAt v.dm (blockAddr v e 0 + 127)
    · exact absurd ⟨(memcmp0_iff _ _ _ _).1 h1, by rw [← checksum_eq]; exact h2⟩ h
    · simp [h1, h2]
  · simp [h1]

theorem grovel_invalid (v : Volume) (e : plus3_dirent)
    (h : ¬ specValidHeader v.dm (blockAddr v e 0)) :
    grovel v e = (false, 128 * e.rcount + e.bcount) := by
  unfold grovel
  by_cases h1 : memcmp0 v.dm (blockAddr v e 0) signature 9 = true
  · by_cases h2 : checksum v.dm (blockAddr v e 0) = dmAt v.dm (blockAddr v e 0 + 127)
    · exact absurd ⟨(memcmp0_iff _ _ _ _).1 h1, by rw [← checksum_eq]; exact h2⟩ h
    · simp [h1, h2]
  · simp [h1]

theorem specLengthField_lt (dm : List Byte) (w : Nat) : specLengthField dm w < 4294967296 := by
  rw [← read32_eq]; exact read32_lt dm (w + 11)

/-- C5.  For every entry `e`: when the nine bytes at its first block address
are the signature and the sum of bytes 0 to 126 modulo 256 equals byte 127,
and the length field at byte 11 is at least 128, the size computed by
`plus3_getattr` is that field minus 128; when the header is not valid in
this sense the size is `128*rcount + bcount`.  Every successful
`plus3_getattr` of a path other than the root reports this size for the
entry that `lookup` finds. -/
theorem getattr_size_by_header (v : Volume) :
    (∀ e : plus3_dirent,
      (specValidHeader v.dm (blockAddr v e 0) →
        128 ≤ specLengthField v.dm (blockAddr v e 0) →
        getattr_size v e = specLengthField v.dm (blockAddr v e 0) - 128) ∧
      (¬ specValidHeader v.dm (blockAddr v e 0) →
        getattr_size v e = 128 * e.rcount + e.bcount)) ∧
    (∀ (path : List Nat) (st : Stat), cstr path ≠ [47] →
      plus3_getattr v path = Res.ok st →
      ∃ (i : Nat) (e : plus3_dirent), lookup v (path.drop 1) = (i : Int) ∧
        v.d_list.get? i = some e ∧ st.st_size = getattr_size v e) := by
  refine ⟨fun e => ⟨fun h hF => ?_, getattr_size_invalid v e⟩, ?_⟩
  · rw [getattr_size_valid v e h]
    have := specLengthField_lt v.dm (blockAddr v e 0)
    omega
  · intro path st hroot hst
    unfold plus3_getattr at hst
    rw [if_neg hroot] at hst
    split at hst
    · cases hst
    · simp only at hst
      split at hst
      · cases hst
      · rename_i hi
        split at hst
        · cases hst
        · rename_i e he
          refine ⟨(lookup v (path.drop 1)).toNat, e, ?_, he, ?_⟩
          · have : 0 ≤ lookup v (path.drop 1) := by omega
            exact (Int.toNat_of_nonneg this).symm
          · cases hst; rfl

/-- C5, at `headerVolume`: file `H` has a valid header with length field
600 and `plus3_getattr` reports 472; file `A` of `plainVolume` has none and
`plus3_getattr` reports `128*1 + 1`. -/
theorem getattr_size_by_header_witness :
    specValidHeader headerVolume.dm (blockAddr headerVolume entryH 0) ∧
    specLengthField headerVolume.dm (blockAddr headerVolume entryH 0) = 600 ∧
    getattr_size headerVolume entryH = 600 - 128 ∧
    ¬ specValidHeader plainVolume.dm (blockAddr plainVolume entryA 0) ∧
    getattr_size plainVolume entryA = 128 * 1 + 1 :=
  ⟨by decide, by decide,
    ((getattr_size_by_header headerVolume).1 entryH).1 (by decide) (by decide),
    by decide,
    ((getattr_size_by_header plainVolume).1 entryA).2 (by decide)⟩

theorem dmAt_set (dm : List Byte) (p : Nat) (b : Byte) (k : Nat) (hp : p < dm.length) :
    dmAt (dm.set p b) k = if k = p then b.val else dmAt dm k := by
  unfold dmAt
  simp only [List.getD_eq_getElem?_getD, List.getElem?_set]
  by_cases hk : p = k
  · subst hk; simp [hp]
  · have hk2 : ¬ k = p := fun h => hk h.symm
    simp [hk, hk2]

theorem sum_range_congr (f g : Nat → Nat) (n : Nat) (h : ∀ k, k < n → g k = f k) :
    ((List.range n).map g).sum = ((List.range n).map f).sum := by
  congr 1
  apply List.map_congr_left
  intro k hk
  exact h k (List.mem_range.1 hk)

theorem sum_range_update (f g : Nat → Nat) (i x n : Nat) (hi : i < n)
    (hg : ∀ k, g k = if k = i then x else f k) :
    ((List.range n).map g).sum + f i = ((List.range n).map f).sum + x := by
  induction n with
  | zero => omega
  | succ n ih =>
    rw [List.range_succ, List.map_append, List.map_append, List.sum_append, List.sum_append]
    simp only [List.map_cons, List.map_nil, List.sum_cons, List.sum_nil, Nat.add_zero]
    by_cases hin : i < n
    · have := ih hin
      have hn : g n = f n := by rw [hg]; simp; omega
      omega
    · have hin2 : i = n := by omega
      subst hin2
      have h1 := sum_range_congr f g i (fun k hk => by rw [hg]; simp; omega)
      have h2 : g i = x := by rw [hg]; simp
      omega

/-- C6.  Let the header of entry `e` be accepted by the driver and lie
inside the image.  Replacing any one of its bytes 0 to 126 by a different
value, byte 127 being left alone, makes the driver reject the header: the
`header` flag of `plus3_read` is false and both `plus3_read` and
`plus3_getattr` fall back to the size `128*rcount + bcount`. -/
theorem header_mutation_rejected (v : Volume) (e : plus3_dirent) (i : Nat) (b : Byte)
    (hv : (grovel v e).1 = true) (hin : blockAddr v e 0 + 128 ≤ v.dm.length)
    (hi : i < 127) (hb : b.val ≠ dmAt v.dm (blockAddr v e 0 + i)) :
    grovel (pokeByte v (blockAddr v e 0 + i) b) e = (false, 128 * e.rcount + e.bcount) ∧
    getattr_size (pokeByte v (blockAddr v e 0 + i) b) e = 128 * e.rcount + e.bcount := by
  have hw : blockAddr (pokeByte v (blockAddr v e 0 + i) b) e 0 = blockAddr v e 0 := rfl
  have hold := (grovel_fst_iff v e).1 hv
  have hnew : ¬ specValidHeader (pokeByte v (blockAddr v e 0 + i) b).dm
      (blockAddr (pokeByte v (blockAddr v e 0 + i) b) e 0) := by
    rw [hw]
    intro hnew
    have hp : blockAddr v e 0 + i < v.dm.length := by omega
    have hsum := sum_range_update (fun k => dmAt v.dm (blockAddr v e 0 + k))
      (fun k => dmAt (v.dm.set (blockAddr v e 0 + i) b) (blockAddr v e 0 + k)) i b.val 127 hi
      (fun k => by
        show dmAt (v.dm.set (blockAddr v e 0 + i) b) (blockAddr v e 0 + k)
          = if k = i then b.val else dmAt v.dm (blockAddr v e 0 + k)
        rw [dmAt_set _ _ _ _ hp]
        by_cases hk : k = i
        · simp [hk]
        · have : ¬ blockAddr v e 0 + k = blockAddr v e 0 + i := by omega
          simp [hk, this])
    have h127 : dmAt (v.dm.set (blockAddr v e 0 + i) b) (blockAddr v e 0 + 127)
        = dmAt v.dm (blockAddr v e 0 + 127) := by
      rw [dmAt_set _ _ _ _ hp]
      have : ¬ blockAddr v e 0 + 127 = blockAddr v e 0 + i := by omega
      simp [this]
    have e1 := hold.2
    have e2 := hnew.2
    unfold headerSum at e1 e2
    simp only [pokeByte] at e2
    rw [h127] at e2
    have hb1 := b.isLt
    have hb2 := dmAt_lt v.dm (blockAddr v e 0 + i)
    simp only at hsum
    omega
  exact ⟨grovel_invalid _ e hnew, getattr_size_invalid _ e hnew⟩

/-- C6, at `headerVolume`: overwriting the file-type byte (byte 15, value 3)
of the valid header of `H` by 0 makes the size fall back to `128*5 + 0`. -/
theorem header_mutation_rejected_witness :
    (grovel headerVolume entryH).1 = true ∧
    getattr_size (pokeByte headerVolume (blockAddr headerVolume entryH 0 + 15) 0) entryH
      = 128 * 5 + 0 :=
  ⟨by decide,
    (header_mutation_rejected headerVolume entryH 15 0 (by decide) (by decide) (by decide)
      (by decide)).2⟩

/-! ## Claim C8: the header bytes are never copied -/

theorem mem_srcRange (w n p : Nat) : p ∈ srcRange w n ↔ w ≤ p ∧ p < w + n := by
  unfold srcRange
  simp only [List.mem_map, List.mem_range]
  constructor
  · rintro ⟨k, hk, rfl⟩
    omega
  · intro h
    exact ⟨p - w, by omega, by omega⟩

theorem sameChars_iff (a b : List Nat) (n : Nat) :
    sameChars a b n = true ↔ ∀ k, k < n → a.getD k 0 = b.getD k 0 := by
  simp [sameChars, List.all_eq_true, List.mem_range]

theorem getD_map_range (f : Nat → Nat) (n k : Nat) (hk : k < n) :
    ((List.range n).map f).getD k 0 = f k := by
  simp [List.getD_eq_getElem?_getD, hk]

/-- The test that the search loop of `lookup` applies to an entry. -/
theorem lookupFrom_eq (nm ex : List Nat) :
    ∀ (l : List plus3_dirent) (i0 : Nat) (r : Int),
      lookupFrom nm ex l i0 = r ↔
        (r = -1 ∧ ∀ e, e ∈ l →
          (visible e && sameChars nm e.name 8 && sameChars ex e.ext 3) = false) ∨
        (∃ (k : Nat) (e : plus3_dirent), r = ((i0 + k : Nat) : Int) ∧ l.get? k = some e ∧
          (visible e && sameChars nm e.name 8 && sameChars ex e.ext 3) = true ∧
          ∀ (j : Nat) (e' : plus3_dirent), j < k → l.get? j = some e' →
            (visible e' && sameChars nm e'.name 8 && sameChars ex e'.ext 3) = false) := by
  intro l
  induction l with
  | nil =>
    intro i0 r
    simp only [lookupFrom]
    constructor
    · intro h
      exact Or.inl ⟨h.symm, fun e he => by simp at he⟩
    · rintro (⟨h, _⟩ | ⟨k, e, _, h, _⟩)
      · exact h.symm
      · simp at h
  | cons e es ih =>
    intro i0 r
    simp only [lookupFrom]
    by_cases hM : (visible e && sameChars nm e.name 8 && sameChars ex e.ext 3) = true
    · rw [if_pos hM]
      constructor
      · intro h
        exact Or.inr ⟨0, e, by simpa using h.symm, rfl, hM, fun j e' hj _ => by omega⟩
      · rintro (⟨_, h⟩ | ⟨k, e', hr, hk, _, hmin⟩)
        · have := h e (List.mem_cons_self _ _)
          rw [hM] at this
          cases this
        · rcases Nat.eq_zero_or_pos k with h0 | hpos
          · subst h0; simpa using hr.symm
          · have := hmin 0 e hpos rfl
            rw [hM] at this
            cases this
    · rw [if_neg hM]
      have hM' : (visible e && sameChars nm e.name 8 && sameChars ex e.ext 3) = false := by
        simpa using hM
      rw [ih (i0 + 1) r]
      constructor
      · rintro (⟨hr, h⟩ | ⟨k, e', hr, hk, hm, hmin⟩)
        · refine Or.inl ⟨hr, fun x hx => ?_⟩
          rcases List.mem_cons.1 hx with rfl | hx
          · exact hM'
          · exact h x hx
        · refine Or.inr ⟨k + 1, e', ?_, hk, hm, fun j x hj hx => ?_⟩
          · rw [hr]; congr 1; omega
          · cases j with
            | zero =>
              have : e = x := by simpa using hx
              subst this; exact hM'
            | succ j => exact hmin j x (by omega) hx
      · rintro (⟨hr, h⟩ | ⟨k, e', hr, hk, hm, hmin⟩)
        · exact Or.inl ⟨hr, fun x hx => h x (List.mem_cons_of_mem _ hx)⟩
        · cases k with
          | zero =>
            have : e = e' := by simpa using hk
            subst this
            rw [hM'] at hm
            cases hm
          | succ k =>
            refine Or.inr ⟨k, e', ?_, hk, hm, fun j x hj hx => hmin (j + 1) x (by omega) hx⟩
            rw [hr]; congr 1; omega

theorem takeWhile_getD (q : Nat → Bool) :
    ∀ (l : List Nat) (k : Nat), k < (l.takeWhile q).length →
      l.getD k 0 = (l.takeWhile q).getD k 0 ∧ q (l.getD k 0) = true := by
  intro l
  induction l with
  | nil => intro k hk; simp at hk
  | cons x xs ih =>
    intro k hk
    cases hq : q x
    · simp [List.takeWhile, hq] at hk
    · simp only [List.takeWhile, hq] at hk ⊢
      cases k with
      | zero => simp [hq]
      | succ k =>
        have := ih k (by simpa using hk)
        simpa using this

theorem takeWhile_stop (q : Nat → Bool) (hq0 : q 0 = false) :
    ∀ l : List Nat, q (l.getD (l.takeWhile q).length 0) = false := by
  intro l
  induction l with
  | nil => simpa using hq0
  | cons x xs ih =>
    cases hq : q x
    · simp [List.takeWhile, hq]
    · simpa [List.takeWhile, hq] using ih

theorem padTo_length (n : Nat) (seg : List Nat) : (padTo n seg).length = n := by
  simp [padTo]

theorem padTo_getD (n : Nat) (seg : List Nat) (k : Nat) (hk : k < n) :
    (padTo n seg).getD k 0 = if k < seg.length then seg.getD k 0 else 32 := by
  unfold padTo
  simp only [List.getD_eq_getElem?_getD, List.getElem?_take, hk, if_true]
  by_cases h : k < seg.length
  · simp [h, List.getElem?_append_left]
  · have h2 : seg.length ≤ k := by omega
    rw [if_neg h, List.getElem?_append_right h2]
    have : k - seg.length < n := by omega
    simp [List.getElem?_replicate, this]

theorem scanName_eq (path : List Nat) (q : Nat → Bool)
    (hq : ∀ c, q c = true ↔ (c ≠ 46 ∧ c ≠ 0)) :
    ∀ n k, k ≤ (path.takeWhile q).length →
      scanName path n k = min (k + n) (path.takeWhile q).length := by
  have hq0 : q 0 = false := by
    cases h : q 0
    · rfl
    · exact absurd rfl ((hq 0).1 h).2
  intro n
  induction n with
  | zero => intro k hk; simp only [scanName]; omega
  | succ n ih =>
    intro k hk
    simp only [scanName]
    by_cases hstop : q (path.getD k 0) = true
    · have h1 := (hq _).1 hstop
      rw [if_neg h1.1, if_neg h1.2]
      have hlt : k < (path.takeWhile q).length := by
        rcases Nat.lt_or_ge k (path.takeWhile q).length with h | h
        · exact h
        · have hk2 : k = (path.takeWhile q).length := by omega
          have := takeWhile_stop q hq0 path
          rw [← hk2, hstop] at this
          cases this
      rw [ih (k + 1) hlt]
      omega
    · have hkT : k = (path.takeWhile q).length := by
        rcases Nat.lt_or_ge k (path.takeWhile q).length with h | h
        · exact absurd (takeWhile_getD q path k h).2 hstop
        · omega
      have h2 : ¬ (path.getD k 0 ≠ 46 ∧ path.getD k 0 ≠ 0) := fun h => hstop ((hq _).2 h)
      by_cases h46 : path.getD k 0 = 46
      · rw [if_pos h46]; omega
      · rw [if_neg h46]
        have h0 : path.getD k 0 = 0 := by
          by_contra h0
          exact h2 ⟨h46, h0⟩
        rw [if_pos h0]; omega

theorem scanExt_eq (path : List Nat) (base : Nat) :
    ∀ n k, k ≤ (cstr (path.drop base)).length →
      scanExt path base n k = min (k + n) (cstr (path.drop base)).length := by
  have hget : ∀ k, path.getD (base + k) 0 = (path.drop base).getD k 0 := by
    intro k
    simp [List.getD_eq_getElem?_getD, List.getElem?_drop]
  intro n
  induction n with
  | zero => intro k hk; simp only [scanExt]; omega
  | succ n ih =>
    intro k hk
    simp only [scanExt]
    unfold cstr at hk ih ⊢
    by_cases h0 : path.getD (base + k) 0 = 0
    · rw [if_pos h0]
      have hkT : ¬ k < ((path.drop base).takeWhile fun c => decide (c ≠ 0)).length := by
        intro h
        have := (takeWhile_getD _ (path.drop base) k h).2
        rw [← hget, h0] at this
        simp at this
      omega
    · rw [if_neg h0]
      have hlt : k < ((path.drop base).takeWhile fun c => decide (c ≠ 0)).length := by
        rcases Nat.lt_or_ge k ((path.drop base).takeWhile fun c => decide (c ≠ 0)).length
          with h | h
        · exact h
        · have hk2 : k = ((path.drop base).takeWhile fun c => decide (c ≠ 0)).length := by
            omega
          have := takeWhile_stop (fun c => decide (c ≠ 0)) (by simp) (path.drop base)
          rw [← hk2, ← hget] at this
          have := of_decide_eq_false this
          exact absurd (not_not.1 this) h0
      rw [ih (k + 1) hlt]
      omega

theorem reqLeft_eq (q : Nat → Bool) (hq : ∀ c, q c = true ↔ (c ≠ 46 ∧ c ≠ 0)) :
    ∀ path : List Nat, reqLeft path = path.takeWhile q := by
  intro path
  unfold reqLeft cstr
  induction path with
  | nil => rfl
  | cons x xs ih =>
    by_cases h0 : x = 0
    · subst h0
      have hq0 : ¬ q 0 = true := fun h => ((hq 0).1 h).2 rfl
      rw [List.takeWhile_cons_of_neg (by decide), List.takeWhile_cons_of_neg hq0]
      rfl
    · by_cases h46 : x = 46
      · subst h46
        have hq46 : ¬ q 46 = true := fun h => ((hq 46).1 h).1 rfl
        rw [List.takeWhile_cons_of_pos (by decide), List.takeWhile_cons_of_neg (by decide),
          List.takeWhile_cons_of_neg hq46]
      · have hqx : q x = true := (hq x).2 ⟨h46, h0⟩
        rw [List.takeWhile_cons_of_pos (by simpa using h0),
          List.takeWhile_cons_of_pos (by simpa using h46), List.takeWhile_cons_of_pos hqx, ih]

theorem reqRight_eq (q : Nat → Bool) (hq : ∀ c, q c = true ↔ (c ≠ 46 ∧ c ≠ 0)) :
    ∀ path : List Nat,
      (path.getD (path.takeWhile q).length 0 = 0 → reqRight path = []) ∧
      (path.getD (path.takeWhile q).length 0 = 46 →
        reqRight path = cstr (path.drop ((path.takeWhile q).length + 1))) := by
  intro path
  unfold reqRight cstr
  induction path with
  | nil => exact ⟨fun _ => rfl, fun _ => rfl⟩
  | cons x xs ih =>
    by_cases h0 : x = 0
    · subst h0
      have hq0 : ¬ q 0 = true := fun h => ((hq 0).1 h).2 rfl
      have e1 : List.takeWhile q (0 :: xs) = [] := List.takeWhile_cons_of_neg hq0
      have e2 : List.takeWhile (fun c => decide (c ≠ 0)) (0 :: xs) = [] :=
        List.takeWhile_cons_of_neg (by decide)
      rw [e1, e2]
      refine ⟨fun _ => rfl, fun h => ?_⟩
      simp only [List.length_nil, List.getD_cons_zero] at h
      cases h
    · by_cases h46 : x = 46
      · subst h46
        have hq46 : ¬ q 46 = true := fun h => ((hq 46).1 h).1 rfl
        have e1 : List.takeWhile q (46 :: xs) = [] := List.takeWhile_cons_of_neg hq46
        have e2 : List.takeWhile (fun c => decide (c ≠ 0)) (46 :: xs)
            = 46 :: List.takeWhile (fun c => decide (c ≠ 0)) xs :=
          List.takeWhile_cons_of_pos (by decide)
        have e3 : ∀ l, List.dropWhile (fun c => decide (c ≠ 46)) (46 :: l) = 46 :: l :=
          fun l => List.dropWhile_cons_of_neg (by decide)
        rw [e1, e2, e3]
        refine ⟨fun h => ?_, fun _ => rfl⟩
        simp only [List.length_nil, List.getD_cons_zero] at h
        cases h
      · have hqx : q x = true := (hq x).2 ⟨h46, h0⟩
        have e1 : List.takeWhile q (x :: xs) = x :: List.takeWhile q xs :=
          List.takeWhile_cons_of_pos hqx
        have e2 : List.takeWhile (fun c => decide (c ≠ 0)) (x :: xs)
            = x :: List.takeWhile (fun c => decide (c ≠ 0)) xs :=
          List.takeWhile_cons_of_pos (by simpa using h0)
        have e3 : ∀ l, List.dropWhile (fun c => decide (c ≠ 46)) (x :: l)
            = List.dropWhile (fun c => decide (c ≠ 46)) l :=
          fun l => List.dropWhile_cons_of_pos (by simpa using h46)
        rw [e1, e2, e3]
        simp only [List.length_cons, List.getD_cons_succ, List.drop_succ_cons]
        exact ih

theorem list_eq_of_getD (a b : List Nat) (n : Nat) (ha : a.length = n) (hb : b.length = n)
    (h : ∀ k, k < n → a.getD k 0 = b.getD k 0) : a = b := by
  apply List.ext_getElem (by rw [ha, hb])
  intro k h1 h2
  have := h k (by omega)
  rwa [List.getD_eq_getElem _ _ h1, List.getD_eq_getElem _ _ h2] at this

theorem nameChar_iff (c : Nat) :
    (decide (c ≠ 46) && decide (c ≠ 0)) = true ↔ (c ≠ 46 ∧ c ≠ 0) := by
  simp

theorem lookup_long (v : Volume) (path : List Nat) (h : 8 < (reqLeft path).length) :
    lookup v path = -1 := by
  rw [reqLeft_eq _ nameChar_iff path] at h
  have hnl := scanName_eq path _ nameChar_iff 8 0 (Nat.zero_le _)
  have hnl8 : scanName path 8 0 = 8 := by omega
  have hq := (nameChar_iff _).1 (takeWhile_getD _ path 8 h).2
  unfold lookup
  simp only [hnl8]
  rw [if_pos hq.2, if_pos hq.1]

theorem lookup_short (v : Volume) (path : List Nat) (h : (reqLeft path).length ≤ 8) :
    lookup v path
      = lookupFrom (padTo 8 (reqLeft path)) (padTo 3 (reqRight path)) v.d_list 0 := by
  have hL := reqLeft_eq _ nameChar_iff path
  have hR := reqRight_eq _ nameChar_iff path
  rw [hL] at h ⊢
  have hnl0 := scanName_eq path _ nameChar_iff 8 0 (Nat.zero_le _)
  generalize hT : List.takeWhile (fun c => decide (c ≠ 46) && decide (c ≠ 0)) path = T at *
  have hnl : scanName path 8 0 = T.length := by omega
  have hstop := takeWhile_stop (fun c => decide (c ≠ 46) && decide (c ≠ 0)) (by decide) path
  rw [hT] at hstop
  have hnm : ((List.range 8).map fun k => if k < T.length then path.getD k 0 else 32)
      = padTo 8 T := by
    apply list_eq_of_getD _ _ 8 (by simp) (padTo_length 8 T)
    intro k hk
    rw [getD_map_range _ _ _ hk, padTo_getD _ _ _ hk]
    by_cases hkT : k < T.length
    · rw [if_pos hkT, if_pos hkT]
      have := (takeWhile_getD (fun c => decide (c ≠ 46) && decide (c ≠ 0)) path k
        (by rw [hT]; exact hkT)).1
      rw [hT] at this
      exact this
    · rw [if_neg hkT, if_neg hkT]
  unfold lookup
  simp only [hnl, hnm]
  by_cases h0 : path.getD T.length 0 = 0
  · rw [if_neg (not_not.2 h0), hR.1 h0]
    rfl
  · have h46 : path.getD T.length 0 = 46 := by
      by_contra h46
      have := (nameChar_iff (path.getD T.length 0)).2 ⟨h46, h0⟩
      rw [hstop] at this
      cases this
    rw [if_pos h0, if_neg (not_not.2 h46), hR.2 h46]
    have hee := scanExt_eq path (T.length + 1) 3 0 (Nat.zero_le _)
    have hex : ((List.range 3).map fun k =>
        if k < scanExt path (T.length + 1) 3 0 then path.getD (T.length + 1 + k) 0 else 32)
        = padTo 3 (cstr (path.drop (T.length + 1))) := by
      apply list_eq_of_getD _ _ 3 (by simp) (padTo_length 3 _)
      intro k hk
      rw [getD_map_range _ _ _ hk, padTo_getD _ _ _ hk, hee]
      by_cases hkR : k < (cstr (path.drop (T.length + 1))).length
      · rw [if_pos hkR, if_pos (by omega)]
        have := (takeWhile_getD (fun c => decide (c ≠ 0)) (path.drop (T.length + 1)) k hkR).1
        show path.getD (T.length + 1 + k) 0
          = (List.takeWhile (fun c => decide (c ≠ 0)) (path.drop (T.length + 1))).getD k 0
        rw [← this]
        simp only [List.getD_eq_getElem?_getD, List.getElem?_drop]
      · rw [if_neg hkR, if_neg (by omega)]
    rw [hex]

theorem matches_iff (path : List Nat) (e : plus3_dirent) :
    (visible e && sameChars (padTo 8 (reqLeft path)) e.name 8
      && sameChars (padTo 3 (reqRight path)) e.ext 3) = true ↔ specMatches path e := by
  unfold specMatches visible
  simp only [Bool.and_eq_true, decide_eq_true_eq, sameChars_iff]
  constructor
  · rintro ⟨⟨⟨h1, h2⟩, h3⟩, h4⟩
    exact ⟨h1, h2, fun k hk => (h3 k hk).symm, fun k hk => (h4 k hk).symm⟩
  · rintro ⟨h1, h2, h3, h4⟩
    exact ⟨⟨⟨h1, h2⟩, fun k hk => (h3 k hk).symm⟩, fun k hk => (h4 k hk).symm⟩

theorem matches_false_iff (path : List Nat) (e : plus3_dirent) :
    (visible e && sameChars (padTo 8 (reqLeft path)) e.name 8
      && sameChars (padTo 3 (reqRight path)) e.ext 3) = false ↔ ¬ specMatches path e := by
  rw [← matches_iff]
  simp

/-- The result of `lookup` in terms of the padded segments of the request. -/
theorem lookup_char (v : Volume) (path : List Nat) :
    (8 < (reqLeft path).length → lookup v path = -1) ∧
    ((reqLeft path).length ≤ 8 →
      (∀ i : Nat, lookup v path = (i : Int) ↔
        (∃ e, v.d_list.get? i = some e ∧ specMatches path e) ∧
          ∀ (j : Nat) (e' : plus3_dirent), j < i → v.d_list.get? j = some e' →
            ¬ specMatches path e') ∧
      (lookup v path = -1 ↔
        ∀ (i : Nat) (e : plus3_dirent), v.d_list.get? i = some e → ¬ specMatches path e)) := by
  refine ⟨lookup_long v path, fun h => ?_⟩
  rw [lookup_short v path h]
  constructor
  · intro i
    rw [lookupFrom_eq]
    constructor
    · rintro (⟨hr, _⟩ | ⟨k, e, hr, hk, hm, hmin⟩)
      · omega
      · have hki : i = k := by omega
        subst hki
        exact ⟨⟨e, hk, (matches_iff path e).1 hm⟩,
          fun j e' hj he' => (matches_false_iff path e').1 (hmin j e' hj he')⟩
    · rintro ⟨⟨e, he, hm⟩, hmin⟩
      exact Or.inr ⟨i, e, by simp, he, (matches_iff path e).2 hm,
        fun j e' hj he' => (matches_false_iff path e').2 (hmin j e' hj he')⟩
  · rw [lookupFrom_eq]
    constructor
    · rintro (⟨_, hall⟩ | ⟨k, e, hr, _⟩)
      · intro i e he
        exact (matches_false_iff path e).1 (hall e (List.mem_iff_get?.2 ⟨i, he⟩))
      · omega
    · intro hall
      refine Or.inl ⟨rfl, fun e he => ?_⟩
      obtain ⟨i, hi⟩ := List.mem_iff_get?.1 he
      exact (matches_false_iff path e).2 (hall i e hi)

/-- C10 (amended).  `lookup` splits the request at its first `'.'`.  A left
segment longer than 8 characters is rejected with `-1`.  Otherwise the left
segment is right-padded with spaces to 8 characters, the right segment
truncated or right-padded to 3 (all spaces when the request has no `'.'`),
and `lookup` returns the smallest slot whose entry has `status < 16`,
`xnum == 0` and these 8 name bytes and 3 ext bytes; it returns `-1` exactly
when no slot matches. -/
theorem lookup_first_match (v : Volume) (path : List Nat) :
    (8 < (reqLeft path).length → lookup v path = -1) ∧
    ((reqLeft path).length ≤ 8 →
      (∀ i : Nat, lookup v path = (i : Int) ↔
        (∃ e, v.d_list.get? i = some e ∧ specMatches path e) ∧
          ∀ (j : Nat) (e' : plus3_dirent), j < i → v.d_list.get? j = some e' →
            ¬ specMatches path e') ∧
      (lookup v path = -1 ↔
        ∀ (i : Nat) (e : plus3_dirent), v.d_list.get? i = some e → ¬ specMatches path e)) :=
  lookup_char v path

theorem trimLen_spec (l : List Nat) :
    ∀ n, trimLen l n ≤ n ∧ (∀ k, trimLen l n ≤ k → k < n → l.getD k 0 = 32) := by
  intro n
  induction n with
  | zero => exact ⟨Nat.le_refl 0, fun k _ hk => by omega⟩
  | succ n ih =>
    simp only [trimLen]
    by_cases h : l.getD n 0 = 32
    · rw [if_pos h]
      refine ⟨by omega, fun k hk1 hk2 => ?_⟩
      rcases Nat.lt_or_ge k n with hkn | hkn
      · exact ih.2 k hk1 hkn
      · have : k = n := by omega
        subst this; exact h
    · rw [if_neg h]
      exact ⟨Nat.le_refl _, fun k hk1 hk2 => by omega⟩

theorem getD_take (l : List Nat) (t k : Nat) (hk : k < t) :
    (l.take t).getD k 0 = l.getD k 0 := by
  simp only [List.getD_eq_getElem?_getD, List.getElem?_take_of_lt hk]

/-- Padding the trimmed characters of an `n`-character field with spaces
gives the field back. -/
theorem padTo_trim (f : Nat → Nat) (n k : Nat) (hk : k < n) :
    (padTo n (((List.range n).map f).take (trimLen ((List.range n).map f) n))).getD k 0
      = f k := by
  have hs := trimLen_spec ((List.range n).map f) n
  rw [padTo_getD _ _ _ hk]
  have hlen : (((List.range n).map f).take (trimLen ((List.range n).map f) n)).length
      = trimLen ((List.range n).map f) n := by
    simp [List.length_take]
    exact hs.1
  rw [hlen]
  by_cases h : k < trimLen ((List.range n).map f) n
  · rw [if_pos h, getD_take _ _ _ h, getD_map_range _ _ _ hk]
  · rw [if_neg h, ← getD_map_range f n k hk]
    exact (hs.2 k (by omega) hk).symm

theorem mem_take_map_range (f : Nat → Nat) (n t x : Nat)
    (hx : x ∈ ((List.range n).map f).take t) : ∃ k, k < n ∧ x = f k := by
  have := List.mem_of_mem_take hx
  obtain ⟨k, hk, rfl⟩ := List.mem_map.1 this
  exact ⟨k, List.mem_range.1 hk, rfl⟩

theorem cstr_self (l : List Nat) (h : ∀ x, x ∈ l → x ≠ 0) : cstr l = l := by
  unfold cstr
  rw [List.takeWhile_eq_self_iff]
  intro x hx
  simpa using h x hx

/-- The display name of an entry whose name field holds neither `'.'` nor
NUL and whose ext field holds no NUL splits back into the trimmed fields. -/
theorem direntName_parse (e : plus3_dirent)
    (hname : ∀ k, k < 8 → e.name.getD k 0 ≠ 46 ∧ e.name.getD k 0 ≠ 0)
    (hext : ∀ k, k < 3 → e.ext.getD k 0 ≠ 0)
    (hns : ¬ (trimLen ((List.range 8).map fun k => e.name.getD k 0) 8 = 0 ∧
      trimLen ((List.range 3).map fun k => e.ext.getD k 0) 3 = 0)) :
    ∃ d, direntName e = some d ∧
      reqLeft d = ((List.range 8).map fun k => e.name.getD k 0).take
        (trimLen ((List.range 8).map fun k => e.name.getD k 0) 8) ∧
      reqRight d = ((List.range 3).map fun k => e.ext.getD k 0).take
        (trimLen ((List.range 3).map fun k => e.ext.getD k 0) 3) := by
  have hne := (trimLen_spec ((List.range 8).map fun k => e.name.getD k 0) 8).1
  have hee := (trimLen_spec ((List.range 3).map fun k => e.ext.getD k 0) 3).1
  unfold direntName
  simp only
  generalize hA : ((List.range 8).map fun k => e.name.getD k 0).take
    (trimLen ((List.range 8).map fun k => e.name.getD k 0) 8) = A
  generalize hB : ((List.range 3).map fun k => e.ext.getD k 0).take
    (trimLen ((List.range 3).map fun k => e.ext.getD k 0) 3) = B
  have hA0 : ∀ x, x ∈ A → x ≠ 0 := by
    intro x hx
    rw [← hA] at hx
    obtain ⟨k, hk, rfl⟩ := mem_take_map_range _ _ _ _ hx
    exact (hname k hk).2
  have hA46 : ∀ x, x ∈ A → x ≠ 46 := by
    intro x hx
    rw [← hA] at hx
    obtain ⟨k, hk, rfl⟩ := mem_take_map_range _ _ _ _ hx
    exact (hname k hk).1
  have hB0 : ∀ x, x ∈ B → x ≠ 0 := by
    intro x hx
    rw [← hB] at hx
    obtain ⟨k, hk, rfl⟩ := mem_take_map_range _ _ _ _ hx
    exact hext k hk
  have hBlen : B.length ≤ 3 := by
    rw [← hB]; simp [List.length_take]
  rw [if_neg hns]
  by_cases hee0 : trimLen ((List.range 3).map fun k => e.ext.getD k 0) 3 = 0
  · have hBnil : B = [] := by rw [← hB, hee0]; rfl
    rw [if_neg (not_not.2 hee0)]
    refine ⟨_, rfl, ?_, ?_⟩
    · unfold reqLeft
      rw [cstr_self A hA0, cstr_self A hA0, List.takeWhile_eq_self_iff]
      intro x hx
      simpa using hA46 x hx
    · unfold reqRight
      rw [cstr_self A hA0, cstr_self A hA0, hBnil]
      have : List.dropWhile (fun c => decide (c ≠ 46)) A = [] := by
        rw [List.dropWhile_eq_nil_iff]
        intro x hx
        simpa using hA46 x hx
      rw [this]
      rfl
  · rw [if_pos hee0]
    have htake : (46 :: cstr B).take
        (13 - trimLen ((List.range 8).map fun k => e.name.getD k 0) 8 - 1) = 46 :: B := by
      rw [cstr_self B hB0]
      apply List.take_of_length_le
      simp only [List.length_cons]
      omega
    rw [htake]
    have hall0 : ∀ x, x ∈ A ++ 46 :: B → x ≠ 0 := by
      intro x hx
      rcases List.mem_append.1 hx with h | h
      · exact hA0 x h
      · rcases List.mem_cons.1 h with h | h
        · omega
        · exact hB0 x h
    refine ⟨_, rfl, ?_, ?_⟩
    · unfold reqLeft
      rw [cstr_self _ hall0, cstr_self _ hall0,
        List.takeWhile_append_of_pos (fun x hx => by simpa using hA46 x hx),
        List.takeWhile_cons_of_neg (by decide), List.append_nil]
    · unfold reqRight
      rw [cstr_self _ hall0, cstr_self _ hall0,
        List.dropWhile_append_of_pos (fun x hx => by simpa using hA46 x hx),
        List.dropWhile_cons_of_neg (by decide)]
      rfl

/-- C9 (amended).  Let slot `i` hold a visible entry (`status < 16`,
`xnum == 0`) with a non-space character in its name or ext, whose 8 name
characters contain neither `'.'` nor NUL and whose 3 ext characters contain
no NUL, and let no earlier slot hold a visible entry with the same name and
ext.  Then `plus3_readdir` yields the display name of the entry and `lookup`
applied to that name returns `i`. -/
theorem readdir_lookup_roundtrip (v : Volume) (i : Nat) (e : plus3_dirent)
    (he : v.d_list.get? i = some e) (hvis : visible e = true)
    (hns : ¬ ((∀ k, k < 8 → e.name.getD k 0 = 32) ∧ (∀ k, k < 3 → e.ext.getD k 0 = 32)))
    (hname : ∀ k, k < 8 → e.name.getD k 0 ≠ 46 ∧ e.name.getD k 0 ≠ 0)
    (hext : ∀ k, k < 3 → e.ext.getD k 0 ≠ 0)
    (hfirst : ∀ (j : Nat) (e' : plus3_dirent), j < i → v.d_list.get? j = some e' →
      ¬ (visible e' = true ∧ (∀ k, k < 8 → e'.name.getD k 0 = e.name.getD k 0) ∧
        (∀ k, k < 3 → e'.ext.getD k 0 = e.ext.getD k 0))) :
    ∃ d, direntName e = some d ∧
      (∃ names, plus3_readdir v [47] = Res.ok names ∧ d ∈ names) ∧
      lookup v d = (i : Int) := by
  have hns' : ¬ (trimLen ((List.range 8).map fun k => e.name.getD k 0) 8 = 0 ∧
      trimLen ((List.range 3).map fun k => e.ext.getD k 0) 3 = 0) := by
    rintro ⟨h8, h3⟩
    apply hns
    constructor
    · intro k hk
      have := (trimLen_spec ((List.range 8).map fun k => e.name.getD k 0) 8).2 k (by omega) hk
      rwa [getD_map_range _ _ _ hk] at this
    · intro k hk
      have := (trimLen_spec ((List.range 3).map fun k => e.ext.getD k 0) 3).2 k (by omega) hk
      rwa [getD_map_range _ _ _ hk] at this
  obtain ⟨d, hd, hL, hR⟩ := direntName_parse e hname hext hns'
  have hLlen : (reqLeft d).length ≤ 8 := by
    rw [hL, List.length_take]
    exact Nat.le_trans (Nat.min_le_left _ _)
      (trimLen_spec ((List.range 8).map fun k => e.name.getD k 0) 8).1
  have hspec : ∀ e' : plus3_dirent, specMatches d e' ↔
      (visible e' = true ∧ (∀ k, k < 8 → e'.name.getD k 0 = e.name.getD k 0) ∧
        (∀ k, k < 3 → e'.ext.getD k 0 = e.ext.getD k 0)) := by
    intro e'
    unfold specMatches visible
    rw [hL, hR]
    simp only [Bool.and_eq_true, decide_eq_true_eq]
    constructor
    · rintro ⟨h1, h2, h3, h4⟩
      refine ⟨⟨h1, h2⟩, fun k hk => ?_, fun k hk => ?_⟩
      · rw [h3 k hk, padTo_trim (fun k => e.name.getD k 0) 8 k hk]
      · rw [h4 k hk, padTo_trim (fun k => e.ext.getD k 0) 3 k hk]
    · rintro ⟨⟨h1, h2⟩, h3, h4⟩
      refine ⟨h1, h2, fun k hk => ?_, fun k hk => ?_⟩
      · rw [h3 k hk, padTo_trim (fun k => e.name.getD k 0) 8 k hk]
      · rw [h4 k hk, padTo_trim (fun k => e.ext.getD k 0) 3 k hk]
  refine ⟨d, hd, ?_, ?_⟩
  · refine ⟨_, by unfold plus3_readdir; rw [if_pos (by decide)], ?_⟩
    apply List.mem_append_right
    rw [List.mem_filterMap]
    exact ⟨e, List.mem_iff_get?.2 ⟨i, he⟩, by rw [if_pos hvis]; exact hd⟩
  · rw [((lookup_char v d).2 hLlen).1 i]
    refine ⟨⟨e, he, (hspec e).2 ⟨hvis, fun _ _ => rfl, fun _ _ => rfl⟩⟩, ?_⟩
    intro j e' hj he' hm
    exact hfirst j e' hj he' ((hspec e').1 hm)

/-- C9, at `plainVolume`: file `B` in slot 1 is listed as `B` and `lookup`
of `B` returns 1. -/
theorem readdir_lookup_roundtrip_witness :
    plainVolume.d_list.get? 1 = some entryB ∧ visible entryB = true ∧
    ∃ d, direntName entryB = some d ∧
      (∃ names, plus3_readdir plainVolume [47] = Res.ok names ∧ d ∈ names) ∧
      lookup plainVolume d = ((1 : Nat) : Int) :=
  ⟨by decide, by decide,
    readdir_lookup_roundtrip plainVolume 1 entryB (by decide) (by decide) (by decide)
      (by decide) (by decide)
      (by
        intro j e' hj he'
        have hj0 : j = 0 := by omega
        subst hj0
        have : entryA = e' := by simpa [plainVolume] using he'
        subst this
        decide)⟩

/-- C9 (counterexample).  On `namesVolume` the slots 1, 2 and 3 hold visible
entries with a non-space name, listed as `A`, `C.D` and `E`; `lookup` of
these names returns slot 0 (the earlier entry of the same name), `-1` (the
dot of the name field is taken for the separator) and `-1` (the listed name
stops at the NUL of the name field), not 1, 2 and 3. -/
theorem readdir_lookup_roundtrip_fails :
    plus3_readdir namesVolume [47]
      = Res.ok [[46], [46, 46], [65], [65], [67, 46, 68], [69],
          [65, 66, 67, 68, 69, 70, 71, 72]] ∧
    (namesVolume.d_list.get? 1).map visible = some true ∧
    (namesVolume.d_list.get? 1).map direntName = some (some [65]) ∧
    lookup namesVolume [65] ≠ 1 ∧
    (namesVolume.d_list.get? 2).map visible = some true ∧
    (namesVolume.d_list.get? 2).map direntName = some (some [67, 46, 68]) ∧
    lookup namesVolume [67, 46, 68] ≠ 2 ∧
    (namesVolume.d_list.get? 3).map visible = some true ∧
    (namesVolume.d_list.get? 3).map direntName = some (some [69]) ∧
    lookup namesVolume [69] ≠ 3 := by
  decide

/-- C10 (counterexample).  On `namesVolume` slot 4 holds the visible entry
`ABCDEFGH` with an all-space ext, which equals the request `ABCDEFGHI`
truncated to 8 characters and an all-space extension; `lookup` of
`ABCDEFGHI` nevertheless returns `-1`: the over-long name is rejected, not
truncated. -/
theorem lookup_rejects_long_name :
    namesVolume.d_list.get? 4 = some (namedEntry [65, 66, 67, 68, 69, 70, 71, 72] [32, 32, 32]) ∧
    specMatches [65, 66, 67, 68, 69, 70, 71, 72, 73]
      (namedEntry [65, 66, 67, 68, 69, 70, 71, 72] [32, 32, 32]) ∧
    lookup namesVolume [65, 66, 67, 68, 69, 70, 71, 72, 73] = -1 := by
  decide

/-- C10, at `namesVolume`: the request `ABCDEFGH.` has an 8-character left
segment and `lookup` returns slot 4; the request `ABCDEFGHI.X` has a
9-character left segment and `lookup` returns `-1`. -/
theorem lookup_first_match_witness :
    (reqLeft [65, 66, 67, 68, 69, 70, 71, 72, 46]).length ≤ 8 ∧
    lookup namesVolume [65, 66, 67, 68, 69, 70, 71, 72, 46] = ((4 : Nat) : Int) ∧
    8 < (reqLeft [65, 66, 67, 68, 69, 70, 71, 72, 73, 46, 88]).length ∧
    lookup namesVolume [65, 66, 67, 68, 69, 70, 71, 72, 73, 46, 88] = -1 :=
  ⟨by decide,
    (((lookup_first_match namesVolume [65, 66, 67, 68, 69, 70, 71, 72, 46]).2 (by decide)).1
      4).2 ⟨⟨_, rfl, by decide⟩, by
        intro j e' hj he'
        have hcases : j = 0 ∨ j = 1 ∨ j = 2 ∨ j = 3 := by omega
        rcases hcases with rfl | rfl | rfl | rfl <;>
          · have := Option.some.inj he'
            subst this
            decide⟩,
    by decide,
    (lookup_first_match namesVolume [65, 66, 67, 68, 69, 70, 71, 72, 73, 46, 88]).1
      (by decide)⟩

/-! ## Claim C11: the directory listing -/

theorem map_range_getD (l : List Nat) (n : Nat) (h : l.length = n) :
    ((List.range n).map fun k => l.getD k 0) = l := by
  apply list_eq_of_getD _ _ n (by simp) h
  intro k hk
  rw [getD_map_range _ _ _ hk]

theorem trimLen_append (l r : List Nat) :
    ∀ n, n ≤ l.length → trimLen (l ++ r) n = trimLen l n := by
  intro n
  induction n with
  | zero => intro _; rfl
  | succ n ih =>
    intro hn
    simp only [trimLen]
    rw [List.getD_append l r 0 n (by omega), ih (by omega)]

theorem take_trimLen (l : List Nat) : l.take (trimLen l l.length) = specTrim l := by
  unfold specTrim
  induction l using List.reverseRecOn with
  | nil => rfl
  | append_singleton l x ih =>
    rw [List.length_append, List.length_singleton]
    simp only [trimLen]
    rw [List.getD_append_right l [x] 0 l.length (Nat.le_refl _), Nat.sub_self,
      List.getD_cons_zero]
    by_cases hx : x = 32
    · rw [if_pos hx, trimLen_append l [x] l.length (Nat.le_refl _),
        List.take_append_of_le_length (trimLen_spec l l.length).1, ih,
        List.rdropWhile_concat_pos _ _ _ (by simpa using hx)]
    · rw [if_neg hx, List.rdropWhile_concat_neg _ _ _ (by simpa using hx)]
      exact List.take_of_length_le (by simp)

theorem trimLen_eq_length (l : List Nat) : trimLen l l.length = (specTrim l).length := by
  rw [← take_trimLen, List.length_take]
  have := (trimLen_spec l l.length).1
  omega

theorem cstr_length_le (l : List Nat) : (cstr l).length ≤ l.length := by
  unfold cstr
  induction l with
  | nil => simp
  | cons x xs ih =>
    rw [List.takeWhile_cons]
    split
    · simp only [List.length_cons]; omega
    · simp

theorem specTrim_length_le (l : List Nat) : (specTrim l).length ≤ l.length := by
  rw [← trimLen_eq_length]
  exact (trimLen_spec l l.length).1

/-- The name handed to `filler` for an entry with 8 name and 3 ext
characters. -/
theorem direntName_eq (e : plus3_dirent) (h8 : e.name.length = 8) (h3 : e.ext.length = 3) :
    direntName e
      = if specTrim e.name = [] ∧ specTrim e.ext = [] then none
        else some (specDisplayNameC e) := by
  have hne := trimLen_eq_length e.name
  have hee := trimLen_eq_length e.ext
  rw [h8] at hne
  rw [h3] at hee
  have hn8 := specTrim_length_le e.name
  have hx3 := specTrim_length_le e.ext
  have hcx := cstr_length_le (specTrim e.ext)
  unfold direntName specDisplayNameC
  simp only [map_range_getD e.name 8 h8, map_range_getD e.ext 3 h3]
  have htn : e.name.take (trimLen e.name 8) = specTrim e.name := by
    rw [← h8]; exact take_trimLen e.name
  have htx : e.ext.take (trimLen e.ext 3) = specTrim e.ext := by
    rw [← h3]; exact take_trimLen e.ext
  rw [htn, htx, hne, hee]
  by_cases hboth : specTrim e.name = [] ∧ specTrim e.ext = []
  · have hb : (specTrim e.name).length = 0 ∧ (specTrim e.ext).length = 0 := by
      rw [hboth.1, hboth.2]; exact ⟨rfl, rfl⟩
    rw [if_pos hboth, if_pos hb]
  · have hb : ¬ ((specTrim e.name).length = 0 ∧ (specTrim e.ext).length = 0) := fun h =>
      hboth ⟨List.length_eq_zero.1 h.1, List.length_eq_zero.1 h.2⟩
    rw [if_neg hboth, if_neg hb]
    by_cases hx : specTrim e.ext = []
    · have hl : ¬ (specTrim e.ext).length ≠ 0 := by rw [hx]; simp
      rw [if_neg (not_not.2 hx), if_neg hl, List.append_nil]
    · have hl : (specTrim e.ext).length ≠ 0 := fun h => hx (List.length_eq_zero.1 h)
      rw [if_pos hx, if_pos hl]
      rw [List.take_of_length_le (by simp only [List.length_cons]; omega)]

theorem specListed_iff (e : plus3_dirent) :
    specListed e = (visible e && !(decide (specTrim e.name = []) && decide (specTrim e.ext = []))) :=
  rfl

theorem filterMap_listed (l : List plus3_dirent)
    (h : ∀ e, e ∈ l → e.name.length = 8 ∧ e.ext.length = 3) :
    (l.filterMap fun e => if visible e then direntName e else none)
      = (l.filter specListed).map specDisplayNameC := by
  induction l with
  | nil => rfl
  | cons e es ih =>
    have he := h e (List.mem_cons_self _ _)
    have ih' := ih (fun x hx => h x (List.mem_cons_of_mem _ hx))
    have hd := direntName_eq e he.1 he.2
    by_cases hv : visible e = true
    · by_cases hboth : specTrim e.name = [] ∧ specTrim e.ext = []
      · have hl : specListed e = false := by
          rw [specListed_iff, hv]; simp [hboth.1, hboth.2]
        rw [List.filterMap_cons_none (by rw [if_pos hv, hd, if_pos hboth]),
          List.filter_cons_of_neg (by rw [hl]; decide), ih']
      · have hl : specListed e = true := by
          rw [specListed_iff, hv]
          simp only [Bool.true_and, Bool.not_eq_true', Bool.and_eq_false_imp,
            decide_eq_true_eq, decide_eq_false_iff_not]
          exact fun h1 h2 => hboth ⟨h1, h2⟩
        rw [List.filterMap_cons_some (f := fun e => if visible e then direntName e else none)
            (b := specDisplayNameC e) (by simp only [hv, if_true]; rw [hd, if_neg hboth]),
          List.filter_cons_of_pos hl, List.map_cons, ih']
    · have hl : specListed e = false := by
        rw [specListed_iff]
        simp [hv]
      rw [List.filterMap_cons_none (by rw [if_neg hv]),
        List.filter_cons_of_neg (by rw [hl]; decide), ih']

theorem specDisplayNameC_length (e : plus3_dirent) (h8 : e.name.length = 8)
    (h3 : e.ext.length = 3) : (specDisplayNameC e).length ≤ 12 := by
  unfold specDisplayNameC
  refine Nat.le_trans (cstr_length_le _) ?_
  have hn8 := specTrim_length_le e.name
  have hx3 := specTrim_length_le e.ext
  have hcx := cstr_length_le (specTrim e.ext)
  rw [List.length_append]
  split
  · simp only [List.length_cons]; omega
  · simp only [List.length_nil]; omega

theorem specDisplayNameC_no_nul (e : plus3_dirent) (hn : ∀ c, c ∈ e.name → c ≠ 0)
    (hx : ∀ c, c ∈ e.ext → c ≠ 0) : specDisplayNameC e = specDisplayName e := by
  unfold specDisplayNameC specDisplayName
  have hpn : ∀ c, c ∈ specTrim e.name → c ≠ 0 := fun c hc =>
    hn c ((List.rdropWhile_prefix _ e.name).subset hc)
  have hpx : ∀ c, c ∈ specTrim e.ext → c ≠ 0 := fun c hc =>
    hx c ((List.rdropWhile_prefix _ e.ext).subset hc)
  rw [cstr_self (specTrim e.ext) hpx]
  apply cstr_self
  intro c hc
  rcases List.mem_append.1 hc with h | h
  · exact hpn c h
  · split at h
    · rcases List.mem_cons.1 h with h | h
      · omega
      · exact hpx c h
    · simp at h

/-- C11 (amended).  Let every entry of the catalog have 8 name and 3 ext
characters.  The names that `plus3_readdir` produces after `.` and `..`
are, in slot order, one name per entry with `status < 16`, extent number 0
and a name or ext that is not all spaces; each name is the entry's name with
trailing spaces removed, followed by `'.'` and the ext with trailing spaces
removed exactly when that trimmed ext is not empty, and cut, as a C string,
at the first NUL character of the ext part and of the whole; for an entry
without NUL characters this is the display name of the specification.
Every name is at most 12 characters long. -/
theorem readdir_names (v : Volume)
    (hwf : ∀ e, e ∈ v.d_list → e.name.length = 8 ∧ e.ext.length = 3) :
    plus3_readdir v [47]
      = Res.ok ([[46], [46, 46]] ++ (v.d_list.filter specListed).map specDisplayNameC) ∧
    (∀ e, e ∈ v.d_list → (∀ c, c ∈ e.name → c ≠ 0) → (∀ c, c ∈ e.ext → c ≠ 0) →
      specDisplayNameC e = specDisplayName e) ∧
    (∀ e, e ∈ v.d_list → (specDisplayNameC e).length ≤ 12) := by
  refine ⟨?_, fun e _ hn hx => specDisplayNameC_no_nul e hn hx,
    fun e he => specDisplayNameC_length e (hwf e he).1 (hwf e he).2⟩
  unfold plus3_readdir
  rw [if_pos (by decide), filterMap_listed v.d_list hwf]

/-- C11 (amended), at `headerVolume`: the catalog lists `H.BIN` only. -/
theorem readdir_names_witness :
    (∀ e, e ∈ headerVolume.d_list → e.name.length = 8 ∧ e.ext.length = 3) ∧
    plus3_readdir headerVolume [47]
      = Res.ok ([[46], [46, 46]] ++ (headerVolume.d_list.filter specListed).map specDisplayNameC) ∧
    (headerVolume.d_list.filter specListed).map specDisplayNameC = [[72, 46, 66, 73, 78]] :=
  ⟨by decide, (readdir_names headerVolume (by decide)).1, by decide⟩

/-- C11 (counterexample).  On `namesVolume` slot 3 holds a visible entry
whose name field is `E`, NUL, `F` and five spaces: trailing spaces removed
it is the three characters `E`, NUL, `F`, but the listing produces the name
`E`, the C string ending at the NUL. -/
theorem readdir_cuts_name_at_nul :
    (namesVolume.d_list.get? 3).map specListed = some true ∧
    (namesVolume.d_list.get? 3).map specDisplayName = some [69, 0, 70] ∧
    (namesVolume.d_list.get? 3).map direntName = some (some [69]) ∧
    plus3_readdir namesVolume [47]
      ≠ Res.ok ([[46], [46, 46]] ++ (namesVolume.d_list.filter specListed).map specDisplayName) := by
  decide

/-! ## Claims C12 to C14: visibility and `d_decode` -/

theorem lookup_cases (v : Volume) (path : List Nat) :
    lookup v path = -1 ∨ ∃ nm ex, lookup v path = lookupFrom nm ex v.d_list 0 := by
  unfold lookup
  simp only
  split
  · split
    · exact Or.inl rfl
    · exact Or.inr ⟨_, _, rfl⟩
  · exact Or.inr ⟨_, _, rfl⟩

theorem filterMap_visible (l : List plus3_dirent) :
    (l.filterMap fun e => if visible e then direntName e else none)
      = (l.filter visible).filterMap direntName := by
  induction l with
  | nil => rfl
  | cons e es ih =>
    cases hv : visible e
    · rw [List.filterMap_cons_none (by simp [hv]), List.filter_cons_of_neg (by simp [hv]), ih]
    · rw [List.filter_cons_of_pos hv]
      cases hd : direntName e with
      | none =>
        rw [List.filterMap_cons_none (by simp [hv, hd]), List.filterMap_cons_none hd, ih]
      | some d =>
        rw [List.filterMap_cons_some (f := fun e => if visible e then direntName e else none)
          (b := d) (by simp [hv, hd]), List.filterMap_cons_some hd, ih]

/-- C12.  Whenever `lookup` returns a slot, the entry of that slot has
`status < 16` (so not `0xE5`) and extent number 0.  The names that
`plus3_readdir` produces after `.` and `..` are computed from the visible
entries alone: an entry with `status >= 16` or a non-zero extent number
contributes no name, and removing it from the catalog leaves the listing
unchanged. -/
theorem invisible_never_named (v : Volume) :
    (∀ (path : List Nat) (i : Nat), lookup v path = (i : Int) →
      ∃ e, v.d_list.get? i = some e ∧ e.status < 16 ∧ e.xnum = 0 ∧ e.status ≠ 229) ∧
    (∀ (path : List Nat) (names : List (List Nat)), plus3_readdir v path = Res.ok names →
      names = [[46], [46, 46]] ++ (v.d_list.filter visible).filterMap direntName) ∧
    (∀ (l1 l2 : List plus3_dirent) (e : plus3_dirent), v.d_list = l1 ++ e :: l2 →
      (16 ≤ e.status ∨ e.xnum ≠ 0) →
      ∀ path, plus3_readdir v path = plus3_readdir { v with d_list := l1 ++ l2 } path) := by
  refine ⟨fun path i h => ?_, fun path names h => ?_, fun l1 l2 e hl he path => ?_⟩
  · rcases lookup_cases v path with h1 | ⟨nm, ex, h1⟩
    · rw [h1] at h; omega
    · rw [h1] at h
      rcases (lookupFrom_eq nm ex v.d_list 0 i).1 h with ⟨hr, _⟩ | ⟨k, e, hr, hk, hm, _⟩
      · omega
      · have hki : i = k := by omega
        subst hki
        simp only [Bool.and_eq_true, visible, decide_eq_true_eq] at hm
        exact ⟨e, hk, hm.1.1.1, hm.1.1.2, by omega⟩
  · unfold plus3_readdir at h
    split at h
    · cases h
      rw [filterMap_visible]
    · cases h
  · have hinv : visible e = false := by
      unfold visible
      rcases he with he | he
      · simp; intro h; omega
      · simp [he]
    unfold plus3_readdir
    simp only [filterMap_visible, hl, List.filter_append, List.filter_cons_of_neg (by simp [hinv] : ¬ visible e = true)]

/-- C12, at `plainVolume`: `lookup` of `B` returns slot 1, whose entry has
status 0; the listing `.`, `..`, `A`, `B` names no entry of the slots 2 and
3, which hold status `0xE5`. -/
theorem invisible_never_named_witness :
    lookup plainVolume [66] = ((1 : Nat) : Int) ∧
    (∃ e, plainVolume.d_list.get? 1 = some e ∧ e.status < 16 ∧ e.xnum = 0 ∧ e.status ≠ 229) ∧
    plus3_readdir plainVolume [47] = Res.ok [[46], [46, 46], [65], [66]] ∧
    plus3_readdir plainVolume [47]
      = plus3_readdir { plainVolume with d_list := [entryA, entryB, unusedEntry] } [47] :=
  ⟨by decide, (invisible_never_named plainVolume).1 [66] 1 (by decide), by decide,
    (invisible_never_named plainVolume).2.2 [entryA, entryB, unusedEntry] [] unusedEntry
      (by decide) (by decide) [47]⟩

theorem byte_bit7 : ∀ b : Byte, decide (b.val &&& 0x80 ≠ 0) = b.val.testBit 7 := by
  decide

theorem xnum_lt (a b : Nat) : (a &&& 0x1f) ||| ((b &&& 0x3f) <<< 5) < 2048 := by
  have h1 : a &&& 0x1f < 2 ^ 5 := Nat.and_lt_two_pow a (by decide)
  have h2 : b &&& 0x3f < 2 ^ 6 := Nat.and_lt_two_pow b (by decide)
  have h3 : (b &&& 0x3f) <<< 5 < 2 ^ 11 := by
    rw [Nat.shiftLeft_eq]
    omega
  exact Nat.or_lt_two_pow (by omega) h3

/-- C13.  For every record `buf`, `d_decode` gives `status = buf[0]`,
`name[i] = buf[1+i] & 0x7F` for the 8 name characters, `ext[i] = buf[9+i] &
0x7F` for the 3 ext characters, `ro`, `sys`, `ar` equal to bit 7 of the
unmasked bytes 9, 10, 11, and `xnum = (buf[12] & 0x1F) | ((buf[14] & 0x3F) <<
5)`, which is below 2048.  An ext byte `0xD4` decodes to the character `T`
(84) with `ro` set. -/
theorem d_decode_fields (manyblocks : Bool) (junk : List Nat) (buf : List Byte) :
    (d_decode manyblocks junk buf).status = bufAt buf 0 ∧
    (d_decode manyblocks junk buf).name.length = 8 ∧
    (∀ i, i < 8 → (d_decode manyblocks junk buf).name.getD i 0 = bufAt buf (1 + i) &&& 0x7F) ∧
    (d_decode manyblocks junk buf).ext.length = 3 ∧
    (∀ i, i < 3 → (d_decode manyblocks junk buf).ext.getD i 0 = bufAt buf (9 + i) &&& 0x7F) ∧
    (d_decode manyblocks junk buf).ro = (bufAt buf 9).testBit 7 ∧
    (d_decode manyblocks junk buf).sys = (bufAt buf 10).testBit 7 ∧
    (d_decode manyblocks junk buf).ar = (bufAt buf 11).testBit 7 ∧
    (d_decode manyblocks junk buf).xnum
      = (bufAt buf 12 &&& 0x1F) ||| ((bufAt buf 14 &&& 0x3F) <<< 5) ∧
    (d_decode manyblocks junk buf).xnum < 2048 ∧
    (bufAt buf 9 = 0xD4 →
      (d_decode manyblocks junk buf).ext.getD 0 0 = 84 ∧
      (d_decode manyblocks junk buf).ro = true) := by
  refine ⟨rfl, by simp [d_decode], fun i hi => ?_, by simp [d_decode], fun i hi => ?_,
    byte_bit7 _, byte_bit7 _, byte_bit7 _, rfl, xnum_lt _ _, fun h => ?_⟩
  · show ((List.range 8).map fun i => bufAt buf (i + 1) &&& 0x7f).getD i 0 = _
    rw [getD_map_range _ _ _ hi, Nat.add_comm]
  · show ((List.range 3).map fun i => bufAt buf (i + 9) &&& 0x7f).getD i 0 = _
    rw [getD_map_range _ _ _ hi, Nat.add_comm]
  · constructor
    · show ((List.range 3).map fun i => bufAt buf (i + 9) &&& 0x7f).getD 0 0 = 84
      rw [getD_map_range _ _ _ (by decide)]
      show bufAt buf 9 &&& 0x7f = 84
      rw [h]
      decide
    · show decide (bufAt buf 9 &&& 0x80 ≠ 0) = true
      rw [h]
      decide

/-- C13, at the record of file `H.BIN` with the read-only bit set on the
first ext byte (`0xD4` instead of `0x54`). -/
theorem d_decode_fields_witness :
    bufAt (recordBytes [72, 32, 32, 32, 32, 32, 32, 32] [0xD4, 73, 78] 0 5
      [1, 0, 2, 0, 3, 0, 0, 0, 0, 0, 0, 0, 0, 0, 0, 0]) 9 = 0xD4 ∧
    (d_decode false [] (recordBytes [72, 32, 32, 32, 32, 32, 32, 32] [0xD4, 73, 78] 0 5
      [1, 0, 2, 0, 3, 0, 0, 0, 0, 0, 0, 0, 0, 0, 0, 0])).ext.getD 0 0 = 84 ∧
    (d_decode false [] (recordBytes [72, 32, 32, 32, 32, 32, 32, 32] [0xD4, 73, 78] 0 5
      [1, 0, 2, 0, 3, 0, 0, 0, 0, 0, 0, 0, 0, 0, 0, 0])).ro = true :=
  ⟨by decide, (d_decode_fields false [] _).2.2.2.2.2.2.2.2.2.2 (by decide)⟩


/-- C14 (the code departs from the claim).  On a volume that is not
many-blocks, `d_decode` copies the sixteen pointer bytes raw into the
`uint16_t` array: the record with pointer bytes 1, 2, ..., 16 decodes to
`al[0] = 513` (bytes 1 and 2 as one pair), not to `al[0] = 1`, `al[1] = 2`,
and `al[8]` to `al[15]` keep whatever `rv` held before; in general
`al[k]` is the pair at `16+2k` for `k < 8`.  On a many-blocks volume the
eight pointers are the little-endian pairs, as claimed. -/
theorem d_decode_al_raw_copy :
    bufAt pointerRecord 16 = 1 ∧ bufAt pointerRecord 17 = 2 ∧
    (d_decode false (List.replicate 16 0) pointerRecord).al
      = [513, 1027, 1541, 2055, 2569, 3083, 3597, 4111, 0, 0, 0, 0, 0, 0, 0, 0] ∧
    (∀ (junk : List Nat) (buf : List Byte) (k : Nat),
      (k < 8 → (d_decode false junk buf).al.getD k 0
        = bufAt buf (16 + 2 * k) + 256 * bufAt buf (17 + 2 * k)) ∧
      (8 ≤ k → k < 16 → (d_decode false junk buf).al.getD k 0 = junk.getD k 0)) ∧
    (∀ (junk : List Nat) (buf : List Byte) (k : Nat), k < 8 →
      (d_decode true junk buf).al.getD k 0
        = bufAt buf (16 + 2 * k) ||| (bufAt buf (17 + 2 * k) <<< 8)) := by
  refine ⟨by decide, by decide, by decide, fun junk buf k => ⟨fun hk => ?_, fun h8 hk => ?_⟩,
    fun junk buf k hk => ?_⟩
  · simp only [d_decode, memcpy_al, Bool.false_eq_true, if_false]
    rw [getD_map_range _ _ _ (by omega), if_pos hk,
      show 16 + 2 * k + 1 = 17 + 2 * k by omega]
  · simp only [d_decode, memcpy_al, Bool.false_eq_true, if_false]
    rw [getD_map_range _ _ _ hk, if_neg (by omega)]
  · simp only [d_decode, read16_al, if_true]
    rw [getD_map_range _ _ _ (by omega), if_pos hk]
    have : k <<< 1 = 2 * k := by rw [Nat.shiftLeft_eq]; omega
    rw [this]
    show dmAt buf (16 + 2 * k) ||| (dmAt buf (16 + 2 * k + 1) <<< 8) = _
    rw [show 16 + 2 * k + 1 = 17 + 2 * k by omega]
    rfl

/-- C20 (the code departs from the claim).  On `plainVolume` file `B`
(slot 1, no header, size 1152, block pointers 3, 4, ...) is read with
`size = 10` at `offset = 128`: first and last block index are both 1, and
the read returns the 128 bytes at image positions 512 to 639, more than the
10 bytes asked for and more than `min(10, 1152 - 128) = 10`. -/
theorem read_returns_more_than_asked :
    grovel plainVolume entryB = (false, 1152) ∧
    128 / 128 = 1 ∧ (128 + 10) / 128 = 1 ∧
    plus3_read_src plainVolume 1 10 128 = Res.ok (srcRange 512 128) ∧
    (srcRange 512 128).length = 128 ∧ ¬ (128 ≤ 10) := by
  decide

/-- The scan for `d_offset` always finishes within its allowance of loop
tests; a found offset is the first record, from `d` on in steps of 32, whose
second byte is non-zero, and after a failure every such byte reads zero. -/
theorem scanLoop_spec (dm : List Byte) :
    ∀ (n d : Nat) (seen : List Nat), dm.length < d + 32 * n + 32 →
      ∃ r seen', scanLoop dm (n + 1) d seen = some (r, seen') ∧
        (∀ t, r = Scan.found t → d ≤ t ∧ 32 ∣ (t - d) ∧ dmAt dm (t + 1) ≠ 0 ∧
          ∀ d', d ≤ d' → d' < t → 32 ∣ (d' - d) → dmAt dm (d' + 1) = 0) ∧
        (r = Scan.failed → ∀ d', d ≤ d' → 32 ∣ (d' - d) → dmAt dm (d' + 1) = 0) := by
  have oob : ∀ k, dm.length ≤ k → dmAt dm k = 0 := by
    intro k hk
    unfold dmAt
    rw [List.getD_eq_default _ _ hk]
    rfl
  intro n
  induction n with
  | zero =>
    intro d seen hS
    simp only [scanLoop]
    by_cases h0 : dmAt dm (d + 1) ≠ 0
    · rw [if_pos h0]
      refine ⟨_, _, rfl, fun t ht => ?_, fun h => by cases h⟩
      cases ht
      exact ⟨Nat.le_refl _, by simp, h0, fun d' h1 h2 _ => by omega⟩
    · rw [if_neg h0, if_pos (by omega)]
      refine ⟨_, _, rfl, fun t ht => (by cases ht), fun _ d' h1 h2 => ?_⟩
      rcases Nat.eq_or_lt_of_le h1 with h | h
      · subst h; exact not_not.1 h0
      · obtain ⟨c, hc⟩ := h2
        exact oob _ (by omega)
  | succ n ih =>
    intro d seen hS
    rw [scanLoop]
    by_cases h0 : dmAt dm (d + 1) ≠ 0
    · rw [if_pos h0]
      refine ⟨_, _, rfl, fun t ht => ?_, fun h => by cases h⟩
      cases ht
      exact ⟨Nat.le_refl _, by simp, h0, fun d' h1 h2 _ => by omega⟩
    · rw [if_neg h0]
      by_cases h1 : d + 0x20 + 1 > dm.length
      · rw [if_pos h1]
        refine ⟨_, _, rfl, fun t ht => (by cases ht), fun _ d' h2 h3 => ?_⟩
        rcases Nat.eq_or_lt_of_le h2 with h | h
        · subst h; exact not_not.1 h0
        · obtain ⟨c, hc⟩ := h3
          exact oob _ (by omega)
      · rw [if_neg h1]
        obtain ⟨r, seen', hr, hf, hx⟩ := ih (d + 0x20) (seen ++ [d + 1]) (by omega)
        refine ⟨r, seen', hr, fun t ht => ?_, fun hfail d' h2 h3 => ?_⟩
        · obtain ⟨a1, a2, a3, a4⟩ := hf t ht
          refine ⟨by omega, ?_, a3, fun d' b1 b2 b3 => ?_⟩
          · obtain ⟨c, hc⟩ := a2
            exact ⟨c + 1, by omega⟩
          · rcases Nat.eq_or_lt_of_le b1 with h | h
            · subst h; exact not_not.1 h0
            · obtain ⟨c, hc⟩ := b3
              exact a4 d' (by omega) b2 ⟨c - 1, by omega⟩
        · rcases Nat.eq_or_lt_of_le h2 with h | h
          · subst h; exact not_not.1 h0
          · obtain ⟨c, hc⟩ := h3
            exact hx hfail d' (by omega) ⟨c - 1, by omega⟩


theorem dmAt_oob (dm : List Byte) (k : Nat) (hk : dm.length ≤ k) : dmAt dm k = 0 := by
  unfold dmAt
  rw [List.getD_eq_default _ _ hk]
  rfl

theorem scanStart_spec (dm : List Byte) :
    ∃ r seen, scanStart dm = some (r, seen) ∧
      (∀ t, r = Scan.found t → 32 ∣ t ∧ dmAt dm (t + 1) ≠ 0 ∧
        ∀ d', d' < t → 32 ∣ d' → dmAt dm (d' + 1) = 0) ∧
      (r = Scan.failed → ∀ d', 32 ∣ d' → dmAt dm (d' + 1) = 0) := by
  obtain ⟨r, seen, h, hf, hx⟩ := scanLoop_spec dm (dm.length / 32 + 1) 0 [] (by omega)
  refine ⟨r, seen, h, fun t ht => ?_, fun hfail d' hd' => hx hfail d' (Nat.zero_le _) hd'⟩
  obtain ⟨_, a2, a3, a4⟩ := hf t ht
  exact ⟨a2, a3, fun d' h1 h2 => a4 d' (Nat.zero_le _) h1 h2⟩

/-- C17 (the code departs from the claim).  On an image of 33 zero bytes the
scan examines `dm[1]` and then `dm[33]`, an index equal to the image size,
before it fails: the test `d_offset+1>d_sz` lets `d_offset+1 == d_sz`
through.  The rest of the claim holds for every image: the scan finishes;
when some multiple `d` of 32 with `d+1` inside the image has a non-zero
byte at `d+1`, the least such `d` is found; when there is none, the scan
fails. -/
theorem scan_examines_index_at_size :
    (List.replicate 33 (0 : Byte)).length = 33 ∧
    scanStart (List.replicate 33 0) = some (Scan.failed, [1, 33]) ∧
    (∀ dm : List Byte, ∃ r seen, scanStart dm = some (r, seen)) ∧
    (∀ (dm : List Byte) (d : Nat), 32 ∣ d → d + 1 < dm.length → dmAt dm (d + 1) ≠ 0 →
      (∀ d', d' < d → 32 ∣ d' → dmAt dm (d' + 1) = 0) →
      ∃ seen, scanStart dm = some (Scan.found d, seen)) ∧
    (∀ dm : List Byte, (∀ d, 32 ∣ d → d + 1 < dm.length → dmAt dm (d + 1) = 0) →
      ∃ seen, scanStart dm = some (Scan.failed, seen)) := by
  refine ⟨by decide, by decide, fun dm => ?_, fun dm d hd hin hnz hleast => ?_, fun dm hz => ?_⟩
  · obtain ⟨r, seen, h, _⟩ := scanStart_spec dm
    exact ⟨r, seen, h⟩
  · obtain ⟨r, seen, h, hf, hx⟩ := scanStart_spec dm
    cases r with
    | failed => exact absurd (hx rfl d hd) hnz
    | found t =>
      obtain ⟨a1, a2, a3⟩ := hf t rfl
      rcases Nat.lt_trichotomy t d with h1 | h1 | h1
      · exact absurd (hleast t h1 a1) a2
      · subst h1; exact ⟨seen, h⟩
      · exact absurd (a3 d h1 hd) hnz
  · obtain ⟨r, seen, h, hf, _⟩ := scanStart_spec dm
    cases r with
    | failed => exact ⟨seen, h⟩
    | found t =>
      obtain ⟨a1, a2, _⟩ := hf t rfl
      rcases Nat.lt_or_ge (t + 1) dm.length with h1 | h1
      · exact absurd (hz t a1 h1) a2
      · exact absurd (dmAt_oob dm _ h1) a2

/-! ## Claim C19: accesses to the image are not checked -/

/-- C19 (the code departs from the claim).  On `shortVolume` the image has
128 bytes and the first block of file `A` starts at position 128, so its
header inspection and every copy from it lie past the end of the image, and
so does a `dread` of the 32 bytes at position 128.  The claim says that
such accesses fail with an out-of-range error; the code makes them
unchecked: `plus3_getattr` succeeds with size 129, `plus3_read` of 10 bytes
at offset 0 succeeds, copying from the positions 128 to 137, and `dread`
delivers 32 bytes. -/
theorem read_past_image_end_succeeds :
    shortVolume.d_sz = 128 ∧
    shortVolume.d_list.get? 0 = some { entryA with
      al := [1, 0, 0, 0, 0, 0, 0, 0, 0, 0, 0, 0, 0, 0, 0, 0] } ∧
    blockAddr shortVolume entryA 0 = 128 ∧
    plus3_getattr shortVolume [47, 65]
      = Res.ok { st_mode := 0o100700, st_nlink := 1, st_size := 129 } ∧
    plus3_read_src shortVolume 0 10 0 = Res.ok (srcRange 128 10) ∧
    plus3_read shortVolume 0 10 0 = Res.ok (List.replicate 10 0) ∧
    (dread shortVolume.dm 32 128).length = 32 := by
  decide

/-! ## Claim C18: a headerless file shorter than one block -/

/-- C18.  Let the entry of file handle `fh` have no valid header and a
nominal size `s = 128*rcount + bcount` below the block size `1 << (7+B)`.
Then `plus3_getattr` computes the size `s`, and for every length (a
`size_t`, so below `2^64`) the read at offset 0 copies exactly the first
`min(length, s)` bytes of the block at `d_offset + (al[0] << (7+B))`, all of
them inside that block. -/
theorem small_file_read (v : Volume) (fh : Nat) (e : plus3_dirent) (size : Nat)
    (he : v.d_list.get? fh = some e) (hh : (grovel v e).1 = false)
    (hs : 128 * e.rcount + e.bcount < 1 <<< (7 + v.d_bsh))
    (hsz : size < 18446744073709551616) :
    getattr_size v e = 128 * e.rcount + e.bcount ∧
    plus3_read_src v fh size 0
      = Res.ok (srcRange (blockAddr v e 0) (min size (128 * e.rcount + e.bcount))) ∧
    plus3_read v fh size 0
      = Res.ok ((srcRange (blockAddr v e 0) (min size (128 * e.rcount + e.bcount))).map
          fun p => v.dm.getD p 0) ∧
    (∀ p, p ∈ srcRange (blockAddr v e 0) (min size (128 * e.rcount + e.bcount)) →
      blockAddr v e 0 ≤ p ∧ p < blockAddr v e 0 + 1 <<< (7 + v.d_bsh)) := by
  have hinv : ¬ specValidHeader v.dm (blockAddr v e 0) := by
    intro h
    rw [(grovel_fst_iff v e).2 h] at hh
    cases hh
  have hg := grovel_invalid v e hinv
  have hsrc : plus3_read_src v fh size 0
      = Res.ok (srcRange (blockAddr v e 0) (min size (128 * e.rcount + e.bcount))) := by
    unfold plus3_read_src
    rw [he]
    simp only [readEntry, hg, Nat.zero_add]
    rw [if_neg (by omega)]
    rw [Nat.shiftLeft_eq, Nat.one_mul] at hs
    have hclip : (if size % 18446744073709551616 > 128 * e.rcount + e.bcount
        then 128 * e.rcount + e.bcount - 0 else size)
        = min size (128 * e.rcount + e.bcount) := by
      rw [Nat.mod_eq_of_lt hsz]
      split <;> omega
    rw [hclip]
    have hlt : min size (128 * e.rcount + e.bcount) % 18446744073709551616
        < 2 ^ (7 + v.d_bsh) := by
      have := Nat.mod_le (min size (128 * e.rcount + e.bcount)) 18446744073709551616
      omega
    have hend : ((min size (128 * e.rcount + e.bcount) % 18446744073709551616)
        >>> (7 + v.d_bsh)) % 4294967296 = 0 := by
      rw [Nat.shiftRight_eq_div_pow, Nat.div_eq_of_lt hlt]
    have hbn : (0 >>> (7 + v.d_bsh)) % 4294967296 = 0 := by simp
    rw [if_pos ⟨hbn, hend⟩]
    simp
  refine ⟨getattr_size_invalid v e hinv, hsrc, ?_, fun p hp => ?_⟩
  · unfold plus3_read
    rw [hsrc]
  · have := (mem_srcRange _ _ _).1 hp
    omega

/-- C18, at `kiloVolume` (not many-blocks, `B = 3`, `rcount = 2`,
`bcount = 50`): the size is 306 and reading 306 bytes at offset 0 copies the
first 306 bytes of the 1024-byte block at position 1024. -/
theorem small_file_read_witness :
    (grovel kiloVolume entryS).1 = false ∧
    128 * entryS.rcount + entryS.bcount = 306 ∧
    getattr_size kiloVolume entryS = 306 ∧
    plus3_read_src kiloVolume 0 306 0 = Res.ok (srcRange 1024 306) :=
  ⟨by decide, by decide,
    (small_file_read kiloVolume 0 entryS 306 (by decide) (by decide) (by decide)
      (by decide)).1,
    (small_file_read kiloVolume 0 entryS 306 (by decide) (by decide) (by decide)
      (by decide)).2.1⟩

/-! ## Claims C15 and C16: extended attributes -/

theorem decimal_ne_nil (n : Nat) : decimal n ≠ [] := by
  unfold decimal Nat.toDigits
  intro h
  have hlen : (Nat.toDigitsCore 10 (n + 1) n []).length = 0 := by
    have := congrArg List.length h
    simpa using this
  rw [Nat.toDigitsCore] at hlen
  split at hlen
  · simp at hlen
  · rw [Nat.toDigitsCore_lens_eq] at hlen
    omega

theorem fmt_u_nat (n : Nat) (h : n < 4294967296) : fmt_u (n : Int) = decimal n := by
  unfold fmt_u
  congr 1
  omega

theorem charAt_small (dm : List Byte) (k : Nat) (h : dmAt dm k < 128) :
    charAt dm k = (dmAt dm k : Int) := by
  unfold charAt
  rw [if_pos h]

theorem read16_eq (dm : List Byte) (k : Nat) :
    read16 dm k = dmAt dm k + 256 * dmAt dm (k + 1) := by
  unfold read16
  rw [lor_shift_eq_add _ _ 8 (by have := dmAt_lt dm k; omega)]
  norm_num

theorem read16_lt (dm : List Byte) (k : Nat) : read16 dm k < 4294967296 := by
  rw [read16_eq]
  have h0 := dmAt_lt dm k
  have h1 := dmAt_lt dm (k + 1)
  omega

/-- The content of `result` agrees with the specification's value whenever
the file-type byte of the header is below 128. -/
theorem xattrValue_spec (v : Volume) (e : plus3_dirent) (key : List Nat)
    (hkey : cstr key = key) (hft : dmAt v.dm (blockAddr v e 0 + 15) < 128) :
    xattrValue v e key = (specXattr v e key).getD [] := by
  unfold xattrValue specXattr
  simp only [hkey]
  by_cases hv : specValidHeader v.dm (blockAddr v e 0)
  · have hg : (grovel v e).1 = true := (grovel_fst_iff v e).2 hv
    rw [if_pos hv, hg]
    simp only [Bool.true_and]
    by_cases h1 : key = xattrKey "filetype"
    · simp only [h1, decide_True, if_true, Option.getD_some]
      rw [charAt_small _ _ hft, fmt_u_nat _ (by omega)]
    · simp only [h1, decide_False, if_false, Bool.false_eq_true]
      by_cases h2 : dmAt v.dm (blockAddr v e 0 + 15) = 0 ∧ key = xattrKey "line"
      · simp only [h2.1, h2.2, decide_True, Bool.and_self, if_true, true_and, Option.getD_some]
        rw [fmt_u_nat _ (read16_lt _ _), read16_eq]
      · have h2' : (decide (dmAt v.dm (blockAddr v e 0 + 15) = 0)
            && decide (key = xattrKey "line")) = false := by
          simpa using h2
        rw [if_neg (by rw [h2']; decide), if_neg h2]
        by_cases h3 : dmAt v.dm (blockAddr v e 0 + 15) = 0 ∧ key = xattrKey "prog"
        · simp only [h3.1, h3.2, decide_True, Bool.and_self, if_true, true_and,
            Option.getD_some]
          rw [fmt_u_nat _ (read16_lt _ _), read16_eq]
        · have h3' : (decide (dmAt v.dm (blockAddr v e 0 + 15) = 0)
              && decide (key = xattrKey "prog")) = false := by
            simpa using h3
          rw [if_neg (by rw [h3']; decide), if_neg h3]
          by_cases h4 : (dmAt v.dm (blockAddr v e 0 + 15) = 1 ∨
              dmAt v.dm (blockAddr v e 0 + 15) = 2) ∧ key = xattrKey "name"
          · have h4' : ((decide (dmAt v.dm (blockAddr v e 0 + 15) = 1)
                || decide (dmAt v.dm (blockAddr v e 0 + 15) = 2))
                && decide (key = xattrKey "name")) = true := by
              simpa using h4
            rw [if_pos h4', if_pos h4]
            rfl
          · have h4' : ((decide (dmAt v.dm (blockAddr v e 0 + 15) = 1)
                || decide (dmAt v.dm (blockAddr v e 0 + 15) = 2))
                && decide (key = xattrKey "name")) = false := by
              simpa using h4
            rw [if_neg (by rw [h4']; decide), if_neg h4]
            by_cases h5 : dmAt v.dm (blockAddr v e 0 + 15) = 3 ∧ key = xattrKey "addr"
            · simp only [h5.1, h5.2, decide_True, Bool.and_self, if_true, true_and,
                Option.getD_some]
              rw [fmt_u_nat _ (read16_lt _ _), read16_eq]
            · have h5' : (decide (dmAt v.dm (blockAddr v e 0 + 15) = 3)
                  && decide (key = xattrKey "addr")) = false := by
                simpa using h5
              rw [if_neg (by rw [h5']; decide), if_neg h5]
              rfl
  · have hg : (grovel v e).1 = false := by
      cases hc : (grovel v e).1
      · rfl
      · exact absurd ((grovel_fst_iff v e).1 hc) hv
    rw [if_neg hv, hg]
    rfl


theorem toInt32_small (n : Nat) (h : n < 2147483648) : toInt32 n = (n : Int) := by
  unfold toInt32
  rw [if_pos (by omega)]
  congr 1
  omega

theorem specXattr_ne_nil (v : Volume) (e : plus3_dirent) (key val : List Nat)
    (h : specXattr v e key = some val) : val ≠ [] := by
  unfold specXattr at h
  simp only at h
  split at h
  · split at h
    · cases h; exact decimal_ne_nil _
    · split at h
      · cases h; exact decimal_ne_nil _
      · split at h
        · cases h; exact decimal_ne_nil _
        · split at h
          · cases h; simp
          · split at h
            · cases h; exact decimal_ne_nil _
            · cases h
  · cases h

/-- C15 (the code departs from the claim).  On `oddVolume` the file `H.BIN`
has a valid header whose file-type byte is 200.  The reference value of
`filetype` is the decimal string `200`, but `plus3_getxattr` passes the
plain (signed) `char` to `%u` and returns the ten characters `4294967240`.
For a file-type byte below 128 the code agrees with the reference: absent
without a valid header or for a key that does not belong to the file type,
the decimal or raw value otherwise; on `basicVolume` (file type 0, line 10)
`line` is `10` and `addr` is absent. -/
theorem getxattr_filetype_sign_extended :
    oddVolume.d_list.get? 0 = some entryW ∧
    (grovel oddVolume entryW).1 = true ∧
    dmAt oddVolume.dm (blockAddr oddVolume entryW 0 + 15) = 200 ∧
    specXattr oddVolume entryW (xattrKey "filetype") = some [50, 48, 48] ∧
    plus3_getxattr oddVolume [47, 72, 46, 66, 73, 78] (xattrKey "filetype") 100
      = Res.ok (10, [52, 50, 57, 52, 57, 54, 55, 50, 52, 48]) ∧
    (∀ (v : Volume) (e : plus3_dirent) (key : List Nat) (vlen : Nat),
      cstr key = key → dmAt v.dm (blockAddr v e 0 + 15) < 128 →
      vlen ≠ 0 → vlen < 2147483648 → ((specXattr v e key).getD []).length ≤ vlen →
      getxattrEntry v e key vlen
        = match specXattr v e key with
          | none => Res.err Errno.ENOATTR
          | some val => Res.ok (val.length, val)) ∧
    plus3_getxattr basicVolume [47, 72, 46, 66, 73, 78] (xattrKey "line") 100
      = Res.ok (2, [49, 48]) ∧
    plus3_getxattr basicVolume [47, 72, 46, 66, 73, 78] (xattrKey "addr") 100
      = Res.err Errno.ENOATTR := by
  refine ⟨by decide, by decide, by decide, by decide, by decide, ?_, by decide, by decide⟩
  intro v e key vlen hkey hft hv0 hv hcap
  unfold getxattrEntry
  simp only [xattrValue_spec v e key hkey hft]
  cases hs : specXattr v e key with
  | none => simp
  | some val =>
    have hne := specXattr_ne_nil v e key val hs
    have hlen : val.length ≠ 0 := fun h => hne (List.length_eq_zero.1 h)
    rw [hs] at hcap
    simp only [Option.getD_some] at hcap ⊢
    rw [if_neg hlen, if_pos hv0, toInt32_small vlen hv, if_neg (by omega)]

/-- The geometry and catalog that `main` derives from the images of the
concrete volumes are those of the volumes. -/
theorem concrete_volumes_mounted :
    ((mountVolume plainImage 4 12 0 (List.replicate 16 0)).map fun v =>
        (v.d_bsh, v.d_offset, v.d_manyblocks, v.d_list))
      = some (0, 0, false, plainVolume.d_list) ∧
    ((mountVolume headerImage 4 4 1 (List.replicate 16 0)).map fun v =>
        (v.d_bsh, v.d_offset, v.d_manyblocks, v.d_list))
      = some (1, 0, false, headerVolume.d_list) ∧
    ((mountVolume namesVolume.dm 8 2 1 (List.replicate 16 0)).map fun v =>
        (v.d_bsh, v.d_offset, v.d_manyblocks, v.d_list))
      = some (1, 0, false, namesVolume.d_list) ∧
    ((mountVolume shortVolume.dm 4 2 0 (List.replicate 16 0)).map fun v =>
        (v.d_bsh, v.d_offset, v.d_manyblocks, v.d_list))
      = some (0, 0, false, shortVolume.d_list) ∧
    (dmAt kiloVolume.dm 1 ≠ 0 ∧
      buildCatalog kiloVolume.dm false (List.replicate 16 0) 0 4 = kiloVolume.d_list) ∧
    ((mountVolume basicVolume.dm 4 2 1 (List.replicate 16 0)).map fun v =>
        (v.d_bsh, v.d_offset, v.d_manyblocks, v.d_list))
      = some (1, 0, false, basicVolume.d_list) ∧
    ((mountVolume oddVolume.dm 4 2 1 (List.replicate 16 0)).map fun v =>
        (v.d_bsh, v.d_offset, v.d_manyblocks, v.d_list))
      = some (1, 0, false, oddVolume.d_list) :=
  ⟨by decide, by decide, by decide, by decide, by decide, by decide, by decide⟩

end Plus3dos
